import Mathlib

set_option maxRecDepth 16000
set_option maxHeartbeats 2000000

/-!
# Verification of the milagro-crypto-js BN254 pairing library

This development gives a shallow embedding of the arithmetic tower
(`big.js`, `fp.js`, `fp2.js`, `fp4.js`, `fp12.js`), the curve layers
(`ecp.js`, `ecp2.js`) and the pairing layer (`pair.js`) of the repository,
at two levels:

* a value level, where an `FP` element is its residue in `ZMod p`
  (the source keeps Montgomery representatives `value·R mod p`; `nres`/`redc`
  translate between the two, so the residue is the value semantics of `FP`),
  and the tower/curve/pairing routines are transliterated operation by
  operation from the source over that carrier; and
* a limb level for the claims about `BIG.norm`, `BIG.ssn`, `FP.reduce` and
  the `XES` excess bookkeeping, where a `BIG` is its array of eleven
  24-bit limbs (JavaScript numbers, modelled as integers; the JavaScript
  bitwise operations `& BMASK` / `>> BASEBITS` coincide with `emod 2^24` /
  `fdiv 2^24` on the 32-bit-safe ranges in which the library keeps limbs).

`rom_field.js` is not part of the sources; the field constants it provides
(Modulus, MConst, R2modp, Fra, Frb) are modelled from the specification
(§1/§4.2/§6: BN254, the 254-bit BN prime for the parameter `u = -CURVE_Bnx`,
Montgomery form with `R = 2^(24·11)`); each such definition carries a
`Modelled from the spec:` comment.
-/

/-! ## Fast modular exponentiation (proof tool)

Kernel-evaluable modular exponentiation, used to discharge the numeric
side conditions of the primality certificate and of the nonresidue facts. -/

def powModAux : Nat → Nat → Nat → Nat → Nat
  | 0, _, _, m => 1 % m
  | fuel+1, b, e, m =>
    if e = 0 then 1 % m
    else
      let r := powModAux fuel (b * b % m) (e / 2) m
      if e % 2 = 1 then r * b % m else r

/-- `powM b e m = b ^ e % m` (for exponents below `2^256`). -/
def powM (b e m : Nat) : Nat := powModAux 256 b e m

theorem powModAux_eq (fuel b e m : Nat) (he : e < 2 ^ fuel) :
    powModAux fuel b e m = b ^ e % m := by
  induction fuel generalizing b e with
  | zero =>
    have : e = 0 := by simpa using he
    subst this
    simp [powModAux]
  | succ n ih =>
    by_cases h0 : e = 0
    · subst h0; simp [powModAux]
    · have h2n : (2:Nat) ^ (n + 1) = 2 * 2 ^ n := by rw [pow_succ]; ring
      have hlt : e / 2 < 2 ^ n := by omega
      have hrec := ih (b * b % m) (e / 2) hlt
      have hsq : (b * b % m) ^ (e / 2) % m = b ^ (2 * (e / 2)) % m := by
        rw [← Nat.pow_mod, pow_mul, pow_two]
      rcases Nat.even_or_odd e with he2 | he2
      · have hmod : e % 2 = 0 := Nat.even_iff.mp he2
        have h2e : 2 * (e / 2) = e := by omega
        simp only [powModAux, h0, if_false, hmod]
        rw [hrec, hsq, h2e]
        simp
      · have hmod : e % 2 = 1 := Nat.odd_iff.mp he2
        have h2e : 2 * (e / 2) + 1 = e := by omega
        simp only [powModAux, h0, if_false, hmod, if_true]
        rw [hrec, hsq, Nat.mod_mul_mod, ← pow_succ, h2e]

theorem powM_eq (b e m : Nat) (he : e < 2 ^ 256) : powM b e m = b ^ e % m :=
  powModAux_eq 256 b e m he

theorem powM_cast {m : Nat} (b e : Nat) (he : e < 2 ^ 256) [NeZero m] :
    ((b : ZMod m)) ^ e = ((powM b e m : Nat) : ZMod m) := by
  rw [powM_eq b e m he, ZMod.natCast_mod, Nat.cast_pow]

theorem powM_lt (b e m : Nat) (hm : 1 < m) : powM b e m < m := by
  unfold powM
  generalize 256 = fuel
  induction fuel generalizing b e with
  | zero => simpa [powModAux] using Nat.mod_lt 1 (by omega)
  | succ n ih =>
    simp only [powModAux]
    split
    · exact Nat.mod_lt 1 (by omega)
    · split
      · exact Nat.mod_lt _ (by omega)
      · exact ih _ _

/-- Lucas certificate packaged for a complete list of the prime factors of
`p - 1` (with multiplicity), with the numeric checks running through `powM`. -/
theorem prime_of_lucas_factors (p a : Nat) (qs : List Nat) (hp : 2 < p)
    (hqs : ∀ q ∈ qs, Nat.Prime q) (hprod : qs.prod = p - 1)
    (he : p - 1 < 2 ^ 256) (hed : ∀ q ∈ qs, (p - 1) / q < 2 ^ 256)
    (ha : powM a (p - 1) p = 1)
    (hchk : ∀ q ∈ qs, powM a ((p - 1) / q) p ≠ 1) : Nat.Prime p := by
  have hpne : NeZero p := ⟨by omega⟩
  apply lucas_primality p (a : ZMod p)
  · rw [powM_cast a (p - 1) he, ha, Nat.cast_one]
  · intro q hq hdvd
    have : q ∣ qs.prod := hprod ▸ hdvd
    obtain ⟨q', hq', hqq'⟩ := (hq.prime.dvd_prod_iff).mp this
    have hq'p : Nat.Prime q' := hqs q' hq'
    have heq : q = q' := (Nat.prime_dvd_prime_iff_eq hq hq'p).mp hqq'
    subst heq
    rw [powM_cast a ((p - 1) / q) (hed q hq')]
    intro hcon
    apply hchk q hq'
    haveI : Fact (1 < p) := ⟨by omega⟩
    have hlt : powM a ((p - 1) / q) p < p := powM_lt _ _ _ (by omega)
    have hv := congrArg ZMod.val hcon
    rw [ZMod.val_natCast_of_lt hlt, ZMod.val_one p] at hv
    exact hv

/-! ## The BN254 modulus and its primality

`Modelled from the spec:` `rom_field.js` is not under `src/`; the spec
(§1, §4.2, Glossary) fixes the curve as BN254 with Barreto–Naehrig
parameter `u = -x`, `x = CURVE_Bnx` from `rom_curve.js`
(`x = 2^62 + 2^55 + 1`), so the modulus is
`p(u) = 36u⁴ + 36u³ + 24u² + 6u + 1`.  (Consistency: `p = CURVE_Gx + 1`,
see `pBN_eq_gx_add_one` below.) -/

/-- `CURVE_Bnx` from `rom_curve.js`, as a value
(limbs `[0x1, 0x0, 0x4080, 0, …]`, radix `2^24`). -/
def bnx : Nat := 0x4080000000000001

/-- `Modelled from the spec:` the BN254 modulus `p = p(-bnx)`. -/
def pBN : Nat := 0x2523648240000001BA344D80000000086121000000000013A700000000000013

example : (pBN : Int) = 36 * bnx^4 - 36 * bnx^3 + 24 * bnx^2 - 6 * bnx + 1 := by decide

/-- `CURVE_Order` from `rom_curve.js`, as a value. -/
def rBN : Nat := 0x2523648240000001BA344D8000000007FF9F800000000010A10000000000000D

example : (rBN : Int) = 36 * bnx^4 - 36 * bnx^3 + 18 * bnx^2 - 6 * bnx + 1 := by decide

theorem prime_29179 : Nat.Prime 29179 := by norm_num
theorem prime_499067 : Nat.Prime 499067 := by norm_num
theorem prime_1562647 : Nat.Prime 1562647 := by norm_num
theorem prime_2749283 : Nat.Prime 2749283 := by norm_num

theorem prime_46879411 : Nat.Prime 46879411 := by
  apply prime_of_lucas_factors 46879411 2 [2, 3, 5, 1562647]
  · omega
  · intro q hq
    fin_cases hq
    · exact Nat.prime_two
    · exact Nat.prime_three
    · exact (by norm_num : Nat.Prime 5)
    · exact prime_1562647
  · decide
  · decide
  · intro q hq; fin_cases hq <;> decide
  · decide
  · intro q hq; fin_cases hq <;> decide

theorem prime_54897371 : Nat.Prime 54897371 := by
  apply prime_of_lucas_factors 54897371 6 [2, 5, 11, 499067]
  · omega
  · intro q hq
    fin_cases hq
    · exact Nat.prime_two
    · exact (by norm_num : Nat.Prime 5)
    · exact (by norm_num : Nat.Prime 11)
    · exact prime_499067
  · decide
  · decide
  · intro q hq; fin_cases hq <;> decide
  · decide
  · intro q hq; fin_cases hq <;> decide

theorem prime_65982793 : Nat.Prime 65982793 := by
  apply prime_of_lucas_factors 65982793 5 [2, 2, 2, 3, 2749283]
  · omega
  · intro q hq
    fin_cases hq
    all_goals first
      | exact Nat.prime_two
      | exact Nat.prime_three
      | exact prime_2749283
  · decide
  · decide
  · intro q hq; fin_cases hq <;> decide
  · decide
  · intro q hq; fin_cases hq <;> decide

theorem prime_15698303 : Nat.Prime 15698303 := by
  apply prime_of_lucas_factors 15698303 5 [2, 269, 29179]
  · omega
  · intro q hq
    fin_cases hq
    · exact Nat.prime_two
    · exact (by norm_num : Nat.Prime 269)
    · exact prime_29179
  · decide
  · decide
  · intro q hq; fin_cases hq <;> decide
  · decide
  · intro q hq; fin_cases hq <;> decide

theorem prime_1033337 : Nat.Prime 1033337 := by
  apply prime_of_lucas_factors 1033337 3 [2, 2, 2, 37, 3491]
  · omega
  · intro q hq
    fin_cases hq
    all_goals first
      | exact Nat.prime_two
      | exact (by norm_num : Nat.Prime 37)
      | exact (by norm_num : Nat.Prime 3491)
  · decide
  · decide
  · intro q hq; fin_cases hq <;> decide
  · decide
  · intro q hq; fin_cases hq <;> decide
theorem prime_71693 : Nat.Prime 71693 := by norm_num
theorem prime_9533 : Nat.Prime 9533 := by norm_num
theorem prime_13043 : Nat.Prime 13043 := by norm_num
theorem prime_4657 : Nat.Prime 4657 := by norm_num
theorem prime_641 : Nat.Prime 641 := by norm_num
theorem prime_419 : Nat.Prime 419 := by norm_num

theorem prime_281276467 : Nat.Prime 281276467 := by
  apply prime_of_lucas_factors 281276467 3 [2, 3, 46879411]
  · omega
  · intro q hq
    fin_cases hq
    · exact Nat.prime_two
    · exact Nat.prime_three
    · exact prime_46879411
  · decide
  · decide
  · intro q hq; fin_cases hq <;> decide
  · decide
  · intro q hq; fin_cases hq <;> decide

theorem prime_1687658803 : Nat.Prime 1687658803 := by
  apply prime_of_lucas_factors 1687658803 2 [2, 3, 281276467]
  · omega
  · intro q hq
    fin_cases hq
    · exact Nat.prime_two
    · exact Nat.prime_three
    · exact prime_281276467
  · decide
  · decide
  · intro q hq; fin_cases hq <;> decide
  · decide
  · intro q hq; fin_cases hq <;> decide

theorem prime_128262069029 : Nat.Prime 128262069029 := by
  apply prime_of_lucas_factors 128262069029 2 [2, 2, 19, 1687658803]
  · omega
  · intro q hq
    fin_cases hq
    · exact Nat.prime_two
    · exact Nat.prime_two
    · exact (by norm_num : Nat.Prime 19)
    · exact prime_1687658803
  · decide
  · decide
  · intro q hq; fin_cases hq <;> decide
  · decide
  · intro q hq; fin_cases hq <;> decide

theorem prime_22009001472962227 : Nat.Prime 22009001472962227 := by
  apply prime_of_lucas_factors 22009001472962227 5 [2, 3, 3, 9533, 128262069029]
  · omega
  · intro q hq
    fin_cases hq
    · exact Nat.prime_two
    · exact Nat.prime_three
    · exact Nat.prime_three
    · exact prime_9533
    · exact prime_128262069029
  · decide
  · decide
  · intro q hq; fin_cases hq <;> decide
  · decide
  · intro q hq; fin_cases hq <;> decide

theorem prime_5994341377 : Nat.Prime 5994341377 := by
  apply prime_of_lucas_factors 5994341377 5 [2, 2, 2, 2, 2, 2, 2, 2, 2, 2, 3, 419, 4657]
  · omega
  · intro q hq
    fin_cases hq
    all_goals first
      | exact Nat.prime_two
      | exact Nat.prime_three
      | exact prime_419
      | exact prime_4657
  · decide
  · decide
  · intro q hq; fin_cases hq <;> decide
  · decide
  · intro q hq; fin_cases hq <;> decide

theorem prime_6848045079628454069 : Nat.Prime 6848045079628454069 := by
  apply prime_of_lucas_factors 6848045079628454069 2
    [2, 2, 53, 197, 229, 13043, 54897371]
  · omega
  · intro q hq
    fin_cases hq
    all_goals first
      | exact Nat.prime_two
      | exact (by norm_num : Nat.Prime 53)
      | exact (by norm_num : Nat.Prime 197)
      | exact (by norm_num : Nat.Prime 229)
      | exact prime_13043
      | exact prime_54897371
  · decide
  · decide
  · intro q hq; fin_cases hq <;> decide
  · decide
  · intro q hq; fin_cases hq <;> decide

/-- The BN254 modulus is prime (Lucas certificate with witness 3). -/
theorem pBN_prime : Nat.Prime pBN := by
  apply prime_of_lucas_factors pBN 3
    [2, 3, 3, 3, 7, 641, 71693, 1033337, 15698303, 65982793, 5994341377,
     22009001472962227, 6848045079628454069]
  · decide
  · intro q hq
    fin_cases hq
    all_goals first
      | exact Nat.prime_two
      | exact Nat.prime_three
      | exact (by norm_num : Nat.Prime 7)
      | exact prime_641
      | exact prime_71693
      | exact prime_1033337
      | exact prime_15698303
      | exact prime_65982793
      | exact prime_5994341377
      | exact prime_22009001472962227
      | exact prime_6848045079628454069
  · decide
  · decide
  · intro q hq; fin_cases hq <;> decide
  · decide
  · intro q hq; fin_cases hq <;> decide

instance : Fact (Nat.Prime pBN) := ⟨pBN_prime⟩

/-! ## The value-level field carrier -/

/-- The field `F_p` underlying `fp.js`: an `FP` in Montgomery form `(f, XES)`
represents the residue `f·R⁻¹ mod p`; this residue is the value carrier. -/
abbrev Fq : Type := ZMod pBN

theorem pBN_pos : 0 < pBN := by decide

theorem two_lt_pBN : 2 < pBN := by decide

/-! ## FP2 / FP4 / FP12 value types

`FP2` elements are `a + i b` with `i² = -1` (`fp2.js`), `FP4` elements are
`a + j b` with `j² = 1 + i` (`fp4.js`), `FP12` elements are `a + v b + v² c`
with `v³ = j` (`fp12.js`).  `FP12s` additionally carries the `stype` sparsity
tag of the source.  The ring instances below give the mathematical product of
each extension; the routines of the source are transliterated separately and
proved to compute these products. -/

@[ext]
structure FP2v where
  a : Fq
  b : Fq
deriving DecidableEq

@[ext]
structure FP4v where
  a : FP2v
  b : FP2v
deriving DecidableEq

/-- An `FP12` value without its `stype` tag (the mathematical element). -/
@[ext]
structure FP12c where
  a : FP4v
  b : FP4v
  c : FP4v
deriving DecidableEq


def FP2v.addv (x y : FP2v) : FP2v := ⟨x.a + y.a, x.b + y.b⟩
def FP2v.mulv (x y : FP2v) : FP2v :=
  ⟨x.a * y.a - x.b * y.b, x.a * y.b + x.b * y.a⟩
def FP2v.negv (x : FP2v) : FP2v := ⟨-x.a, -x.b⟩

theorem f2addv_assoc (x y z : FP2v) : FP2v.addv (FP2v.addv x y) z = FP2v.addv x (FP2v.addv y z) := by
  ext <;> simp [FP2v.addv] <;> ring
theorem f2addv_comm (x y : FP2v) : FP2v.addv x y = FP2v.addv y x := by
  ext <;> simp [FP2v.addv] <;> ring
theorem f2zero_addv (x : FP2v) : FP2v.addv ⟨0, 0⟩ x = x := by ext <;> simp [FP2v.addv]
theorem f2addv_zero (x : FP2v) : FP2v.addv x ⟨0, 0⟩ = x := by ext <;> simp [FP2v.addv]
theorem f2negv_addv (x : FP2v) : FP2v.addv (FP2v.negv x) x = ⟨0, 0⟩ := by
  ext <;> simp [FP2v.addv, FP2v.negv]
theorem f2mulv_assoc (x y z : FP2v) : FP2v.mulv (FP2v.mulv x y) z = FP2v.mulv x (FP2v.mulv y z) := by
  ext <;> simp [FP2v.mulv] <;> ring
theorem f2mulv_comm (x y : FP2v) : FP2v.mulv x y = FP2v.mulv y x := by
  ext <;> simp [FP2v.mulv] <;> ring
theorem f2one_mulv (x : FP2v) : FP2v.mulv ⟨1, 0⟩ x = x := by ext <;> simp [FP2v.mulv]
theorem f2mulv_one (x : FP2v) : FP2v.mulv x ⟨1, 0⟩ = x := by ext <;> simp [FP2v.mulv]
theorem f2mulv_addv (x y z : FP2v) :
    FP2v.mulv x (FP2v.addv y z) = FP2v.addv (FP2v.mulv x y) (FP2v.mulv x z) := by
  ext <;> simp [FP2v.mulv, FP2v.addv] <;> ring
theorem f2addv_mulv (x y z : FP2v) :
    FP2v.mulv (FP2v.addv x y) z = FP2v.addv (FP2v.mulv x z) (FP2v.mulv y z) := by
  ext <;> simp [FP2v.mulv, FP2v.addv] <;> ring
theorem f2zero_mulv (x : FP2v) : FP2v.mulv ⟨0, 0⟩ x = ⟨0, 0⟩ := by ext <;> simp [FP2v.mulv]
theorem f2mulv_zero (x : FP2v) : FP2v.mulv x ⟨0, 0⟩ = ⟨0, 0⟩ := by ext <;> simp [FP2v.mulv]

instance : Zero FP2v := ⟨⟨0, 0⟩⟩
instance : One FP2v := ⟨⟨1, 0⟩⟩
instance : Add FP2v := ⟨FP2v.addv⟩
instance : Mul FP2v := ⟨FP2v.mulv⟩
instance : Neg FP2v := ⟨FP2v.negv⟩

instance : CommRing FP2v where
  add := FP2v.addv
  zero := ⟨0, 0⟩
  neg := FP2v.negv
  mul := FP2v.mulv
  one := ⟨1, 0⟩
  nsmul := nsmulRec
  zsmul := zsmulRec
  add_assoc := f2addv_assoc
  zero_add := f2zero_addv
  add_zero := f2addv_zero
  add_comm := f2addv_comm
  neg_add_cancel := f2negv_addv
  left_distrib := f2mulv_addv
  right_distrib := f2addv_mulv
  zero_mul := f2zero_mulv
  mul_zero := f2mulv_zero
  mul_assoc := f2mulv_assoc
  one_mul := f2one_mulv
  mul_one := f2mulv_one
  mul_comm := f2mulv_comm
@[simp] theorem f2add_a (x y : FP2v) : (x + y).a = x.a + y.a := rfl
@[simp] theorem f2add_b (x y : FP2v) : (x + y).b = x.b + y.b := rfl
@[simp] theorem f2mul_a (x y : FP2v) : (x * y).a = x.a * y.a - x.b * y.b := rfl
@[simp] theorem f2mul_b (x y : FP2v) : (x * y).b = x.a * y.b + x.b * y.a := rfl
@[simp] theorem f2neg_a (x : FP2v) : (-x).a = -x.a := rfl
@[simp] theorem f2neg_b (x : FP2v) : (-x).b = -x.b := rfl
@[simp] theorem f2sub_a (x y : FP2v) : (x - y).a = x.a - y.a := by
  rw [sub_eq_add_neg, sub_eq_add_neg]; rfl
@[simp] theorem f2sub_b (x y : FP2v) : (x - y).b = x.b - y.b := by
  rw [sub_eq_add_neg, sub_eq_add_neg]; rfl
@[simp] theorem f2one_a : (1 : FP2v).a = 1 := rfl
@[simp] theorem f2one_b : (1 : FP2v).b = 0 := rfl
@[simp] theorem f2zero_a : (0 : FP2v).a = 0 := rfl
@[simp] theorem f2zero_b : (0 : FP2v).b = 0 := rfl

/-- `1 + i`, the quadratic non-residue `j²` of the `FP4` layer. -/
def xi2 : FP2v := ⟨1, 1⟩

def FP4v.addv (x y : FP4v) : FP4v := ⟨x.a + y.a, x.b + y.b⟩
def FP4v.mulv (x y : FP4v) : FP4v :=
  ⟨x.a * y.a + xi2 * (x.b * y.b), x.a * y.b + x.b * y.a⟩
def FP4v.negv (x : FP4v) : FP4v := ⟨-x.a, -x.b⟩

theorem f4addv_assoc (x y z : FP4v) : FP4v.addv (FP4v.addv x y) z = FP4v.addv x (FP4v.addv y z) := by
  ext1 <;> simp [FP4v.addv] <;> ring
theorem f4addv_comm (x y : FP4v) : FP4v.addv x y = FP4v.addv y x := by
  ext1 <;> simp [FP4v.addv] <;> ring
theorem f4zero_addv (x : FP4v) : FP4v.addv ⟨0, 0⟩ x = x := by ext1 <;> simp [FP4v.addv]
theorem f4addv_zero (x : FP4v) : FP4v.addv x ⟨0, 0⟩ = x := by ext1 <;> simp [FP4v.addv]
theorem f4negv_addv (x : FP4v) : FP4v.addv (FP4v.negv x) x = ⟨0, 0⟩ := by
  ext1 <;> simp [FP4v.addv, FP4v.negv]
theorem f4mulv_assoc (x y z : FP4v) : FP4v.mulv (FP4v.mulv x y) z = FP4v.mulv x (FP4v.mulv y z) := by
  ext1 <;> simp [FP4v.mulv] <;> ring
theorem f4mulv_comm (x y : FP4v) : FP4v.mulv x y = FP4v.mulv y x := by
  ext1 <;> simp [FP4v.mulv] <;> ring
theorem f4one_mulv (x : FP4v) : FP4v.mulv ⟨1, 0⟩ x = x := by ext1 <;> simp [FP4v.mulv]
theorem f4mulv_one (x : FP4v) : FP4v.mulv x ⟨1, 0⟩ = x := by ext1 <;> simp [FP4v.mulv]
theorem f4mulv_addv (x y z : FP4v) :
    FP4v.mulv x (FP4v.addv y z) = FP4v.addv (FP4v.mulv x y) (FP4v.mulv x z) := by
  ext1 <;> simp [FP4v.mulv, FP4v.addv] <;> ring
theorem f4addv_mulv (x y z : FP4v) :
    FP4v.mulv (FP4v.addv x y) z = FP4v.addv (FP4v.mulv x z) (FP4v.mulv y z) := by
  ext1 <;> simp [FP4v.mulv, FP4v.addv] <;> ring
theorem f4zero_mulv (x : FP4v) : FP4v.mulv ⟨0, 0⟩ x = ⟨0, 0⟩ := by ext1 <;> simp [FP4v.mulv]
theorem f4mulv_zero (x : FP4v) : FP4v.mulv x ⟨0, 0⟩ = ⟨0, 0⟩ := by ext1 <;> simp [FP4v.mulv]

instance : Zero FP4v := ⟨⟨0, 0⟩⟩
instance : One FP4v := ⟨⟨1, 0⟩⟩
instance : Add FP4v := ⟨FP4v.addv⟩
instance : Mul FP4v := ⟨FP4v.mulv⟩
instance : Neg FP4v := ⟨FP4v.negv⟩

instance : CommRing FP4v where
  add := FP4v.addv
  zero := ⟨0, 0⟩
  neg := FP4v.negv
  mul := FP4v.mulv
  one := ⟨1, 0⟩
  nsmul := nsmulRec
  zsmul := zsmulRec
  add_assoc := f4addv_assoc
  zero_add := f4zero_addv
  add_zero := f4addv_zero
  add_comm := f4addv_comm
  neg_add_cancel := f4negv_addv
  left_distrib := f4mulv_addv
  right_distrib := f4addv_mulv
  zero_mul := f4zero_mulv
  mul_zero := f4mulv_zero
  mul_assoc := f4mulv_assoc
  one_mul := f4one_mulv
  mul_one := f4mulv_one
  mul_comm := f4mulv_comm
@[simp] theorem f4add_a (x y : FP4v) : (x + y).a = x.a + y.a := rfl
@[simp] theorem f4add_b (x y : FP4v) : (x + y).b = x.b + y.b := rfl
@[simp] theorem f4mul_a (x y : FP4v) : (x * y).a = x.a * y.a + xi2 * (x.b * y.b) := rfl
@[simp] theorem f4mul_b (x y : FP4v) : (x * y).b = x.a * y.b + x.b * y.a := rfl
@[simp] theorem f4neg_a (x : FP4v) : (-x).a = -x.a := rfl
@[simp] theorem f4neg_b (x : FP4v) : (-x).b = -x.b := rfl
@[simp] theorem f4sub_a (x y : FP4v) : (x - y).a = x.a - y.a := by
  rw [sub_eq_add_neg, sub_eq_add_neg]; rfl
@[simp] theorem f4sub_b (x y : FP4v) : (x - y).b = x.b - y.b := by
  rw [sub_eq_add_neg, sub_eq_add_neg]; rfl
@[simp] theorem f4one_a : (1 : FP4v).a = 1 := rfl
@[simp] theorem f4one_b : (1 : FP4v).b = 0 := rfl
@[simp] theorem f4zero_a : (0 : FP4v).a = 0 := rfl
@[simp] theorem f4zero_b : (0 : FP4v).b = 0 := rfl

/-- `j` as an `FP4` element; multiplication by `j` is `FP4.times_i`. -/
def jc : FP4v := ⟨0, 1⟩

def FP12c.addv (x y : FP12c) : FP12c := ⟨x.a + y.a, x.b + y.b, x.c + y.c⟩
def FP12c.mulv (x y : FP12c) : FP12c :=
  ⟨x.a * y.a + jc * (x.b * y.c + x.c * y.b),
   x.a * y.b + x.b * y.a + jc * (x.c * y.c),
   x.a * y.c + x.c * y.a + x.b * y.b⟩
def FP12c.negv (x : FP12c) : FP12c := ⟨-x.a, -x.b, -x.c⟩

theorem f12addv_assoc (x y z : FP12c) : FP12c.addv (FP12c.addv x y) z = FP12c.addv x (FP12c.addv y z) := by
  ext1 <;> simp [FP12c.addv] <;> ring
theorem f12addv_comm (x y : FP12c) : FP12c.addv x y = FP12c.addv y x := by
  ext1 <;> simp [FP12c.addv] <;> ring
theorem f12zero_addv (x : FP12c) : FP12c.addv ⟨0, 0, 0⟩ x = x := by ext1 <;> simp [FP12c.addv]
theorem f12addv_zero (x : FP12c) : FP12c.addv x ⟨0, 0, 0⟩ = x := by ext1 <;> simp [FP12c.addv]
theorem f12negv_addv (x : FP12c) : FP12c.addv (FP12c.negv x) x = ⟨0, 0, 0⟩ := by
  ext1 <;> simp [FP12c.addv, FP12c.negv]
theorem f12mulv_assoc (x y z : FP12c) : FP12c.mulv (FP12c.mulv x y) z = FP12c.mulv x (FP12c.mulv y z) := by
  ext1 <;> simp [FP12c.mulv] <;> ring
theorem f12mulv_comm (x y : FP12c) : FP12c.mulv x y = FP12c.mulv y x := by
  ext1 <;> simp [FP12c.mulv] <;> ring
theorem f12one_mulv (x : FP12c) : FP12c.mulv ⟨1, 0, 0⟩ x = x := by ext1 <;> simp [FP12c.mulv]
theorem f12mulv_one (x : FP12c) : FP12c.mulv x ⟨1, 0, 0⟩ = x := by ext1 <;> simp [FP12c.mulv]
theorem f12mulv_addv (x y z : FP12c) :
    FP12c.mulv x (FP12c.addv y z) = FP12c.addv (FP12c.mulv x y) (FP12c.mulv x z) := by
  ext1 <;> simp [FP12c.mulv, FP12c.addv] <;> ring
theorem f12addv_mulv (x y z : FP12c) :
    FP12c.mulv (FP12c.addv x y) z = FP12c.addv (FP12c.mulv x z) (FP12c.mulv y z) := by
  ext1 <;> simp [FP12c.mulv, FP12c.addv] <;> ring
theorem f12zero_mulv (x : FP12c) : FP12c.mulv ⟨0, 0, 0⟩ x = ⟨0, 0, 0⟩ := by ext1 <;> simp [FP12c.mulv]
theorem f12mulv_zero (x : FP12c) : FP12c.mulv x ⟨0, 0, 0⟩ = ⟨0, 0, 0⟩ := by ext1 <;> simp [FP12c.mulv]

instance : Zero FP12c := ⟨⟨0, 0, 0⟩⟩
instance : One FP12c := ⟨⟨1, 0, 0⟩⟩
instance : Add FP12c := ⟨FP12c.addv⟩
instance : Mul FP12c := ⟨FP12c.mulv⟩
instance : Neg FP12c := ⟨FP12c.negv⟩

instance : CommRing FP12c where
  add := FP12c.addv
  zero := ⟨0, 0, 0⟩
  neg := FP12c.negv
  mul := FP12c.mulv
  one := ⟨1, 0, 0⟩
  nsmul := nsmulRec
  zsmul := zsmulRec
  add_assoc := f12addv_assoc
  zero_add := f12zero_addv
  add_zero := f12addv_zero
  add_comm := f12addv_comm
  neg_add_cancel := f12negv_addv
  left_distrib := f12mulv_addv
  right_distrib := f12addv_mulv
  zero_mul := f12zero_mulv
  mul_zero := f12mulv_zero
  mul_assoc := f12mulv_assoc
  one_mul := f12one_mulv
  mul_one := f12mulv_one
  mul_comm := f12mulv_comm
@[simp] theorem f12add_a (x y : FP12c) : (x + y).a = x.a + y.a := rfl
@[simp] theorem f12add_b (x y : FP12c) : (x + y).b = x.b + y.b := rfl
@[simp] theorem f12add_c (x y : FP12c) : (x + y).c = x.c + y.c := rfl
@[simp] theorem f12mul_a (x y : FP12c) : (x * y).a = x.a * y.a + jc * (x.b * y.c + x.c * y.b) := rfl
@[simp] theorem f12mul_b (x y : FP12c) : (x * y).b = x.a * y.b + x.b * y.a + jc * (x.c * y.c) := rfl
@[simp] theorem f12mul_c (x y : FP12c) : (x * y).c = x.a * y.c + x.c * y.a + x.b * y.b := rfl
@[simp] theorem f12neg_a (x : FP12c) : (-x).a = -x.a := rfl
@[simp] theorem f12neg_b (x : FP12c) : (-x).b = -x.b := rfl
@[simp] theorem f12neg_c (x : FP12c) : (-x).c = -x.c := rfl
@[simp] theorem f12sub_a (x y : FP12c) : (x - y).a = x.a - y.a := by
  rw [sub_eq_add_neg, sub_eq_add_neg]; rfl
@[simp] theorem f12sub_b (x y : FP12c) : (x - y).b = x.b - y.b := by
  rw [sub_eq_add_neg, sub_eq_add_neg]; rfl
@[simp] theorem f12sub_c (x y : FP12c) : (x - y).c = x.c - y.c := by
  rw [sub_eq_add_neg, sub_eq_add_neg]; rfl
@[simp] theorem f12one_a : (1 : FP12c).a = 1 := rfl
@[simp] theorem f12one_b : (1 : FP12c).b = 0 := rfl
@[simp] theorem f12one_c : (1 : FP12c).c = 0 := rfl
@[simp] theorem f12zero_a : (0 : FP12c).a = 0 := rfl
@[simp] theorem f12zero_b : (0 : FP12c).b = 0 := rfl
@[simp] theorem f12zero_c : (0 : FP12c).c = 0 := rfl

/-- FP12 conjugation on the mathematical element (the `p⁶`-power map). -/
def FP12c.conj (x : FP12c) : FP12c :=
  ⟨⟨x.a.a, -x.a.b⟩, ⟨-x.b.a, x.b.b⟩, ⟨x.c.a, -x.c.b⟩⟩

theorem f12conj_mul (x y : FP12c) : FP12c.conj (x * y) = FP12c.conj x * FP12c.conj y := by
  ext1 <;> ext1 <;> simp [FP12c.conj, jc, xi2] <;> ring

theorem f12conj_one : FP12c.conj 1 = 1 := by
  ext1 <;> ext1 <;> simp [FP12c.conj]

/-! ## Value-level FP operations (`fp.js`)

At value level `add`/`sub`/`mul`/`sqr`/`neg` of `fp.js` are the field
operations of `Fq` (the `XES`/Montgomery bookkeeping is studied separately at
limb level).  The operations with algorithmic content are transliterated:
`FP.pow` (4-bit windowed), and `inverse`/`sqrt` which call it. -/

/-- The table `tb` of `FP.prototype.pow`: `tb[0] = FP(1)`, `tb[j] = tb[j-1]·x`. -/
def fptbl (x : Fq) : Nat → Fq
  | 0 => 1
  | j + 1 => fptbl x j * x

/-- The main loop of `FP.prototype.pow`: processing the 4-bit digits
`w[i] = (e >> 4i) mod 16` from `i = nb-2` down to `0`, starting from
`r = tb[w[nb-1]]`; each step is four `r.sqr()` and one `r.mul(tb[w[i]])`. -/
def fppowLoop (x : Fq) (e nb : Nat) : Nat → Fq
  | 0 => fptbl x (e / 16 ^ (nb - 1) % 16)
  | k + 1 =>
    let r := fppowLoop x e nb k
    let r1 := r * r
    let r2 := r1 * r1
    let r3 := r2 * r2
    r3 * r3 * fptbl x (e / 16 ^ (nb - 2 - k) % 16)

/-- `FP.prototype.pow`: 4-bit windowed exponentiation.
`nb = 1 + ⌊(nbits(e) + 3) / 4⌋` digits (`lastbits(4)`/`fshr(4)` extract the
base-16 digits of the normalised exponent). -/
def fpPow (x : Fq) (e : Nat) : Fq :=
  let nb := 1 + (Nat.size e + 3) / 4
  fppowLoop x e nb (nb - 1)

/-- `FP.prototype.inverse`: `m2 = Modulus - 2`, `this.pow(m2)` (Fermat). -/
def fpInv (x : Fq) : Fq := fpPow x (pBN - 2)

/-- `FP.prototype.sqrt`: `b = Modulus + 1; b.shr(2); this.pow(b)`
(`p ≡ 3 mod 4`, so `b = (p+1)/4` exactly). -/
def fpSqrtv (x : Fq) : Fq := fpPow x ((pBN + 1) / 4)

/-- `FP.prototype.jacobi`: `BIG.jacobi` implements the standard binary
Jacobi-symbol algorithm on `(redc this, Modulus)`; it is modelled by the
mathematical Jacobi symbol it computes. -/
def fpJacobi (x : Fq) : Int := jacobiSym (x.val : Int) pBN

theorem fptbl_eq (x : Fq) (j : Nat) : fptbl x j = x ^ j := by
  induction j with
  | zero => simp [fptbl]
  | succ n ih => rw [fptbl, ih, pow_succ]

theorem fppowLoop_eq (x : Fq) (e nb : Nat) (hnb : 1 ≤ nb) (he : e < 16 ^ nb) :
    ∀ k, k ≤ nb - 1 → fppowLoop x e nb k = x ^ (e / 16 ^ (nb - 1 - k)) := by
  intro k
  induction k with
  | zero =>
    intro _
    have hd : e / 16 ^ (nb - 1) < 16 := by
      apply Nat.div_lt_of_lt_mul
      calc e < 16 ^ nb := he
        _ = 16 ^ (nb - 1) * 16 := by
          rw [← pow_succ]
          congr 1
          omega
    simp only [fppowLoop, Nat.sub_zero]
    rw [Nat.mod_eq_of_lt hd, fptbl_eq]
  | succ k ih =>
    intro hk
    have hk' : k ≤ nb - 1 := by omega
    have hj : nb - 1 - k = (nb - 2 - k) + 1 := by omega
    have hj2 : nb - 1 - (k + 1) = nb - 2 - k := by omega
    simp only [fppowLoop]
    rw [ih hk', fptbl_eq, hj2]
    have hq : e / 16 ^ (nb - 1 - k) = e / 16 ^ (nb - 2 - k) / 16 := by
      rw [hj, pow_succ, Nat.div_div_eq_div_mul]
    rw [hq]
    generalize e / 16 ^ (nb - 2 - k) = Q
    conv_rhs => rw [← Nat.div_add_mod Q 16]
    rw [pow_add, mul_comm 16 (Q / 16), pow_mul]
    ring
theorem fpPow_eq (x : Fq) (e : Nat) : fpPow x e = x ^ e := by
  unfold fpPow
  have h1 : 1 ≤ 1 + (Nat.size e + 3) / 4 := by omega
  have hsz : e < 2 ^ Nat.size e := Nat.lt_size_self e
  have hse : Nat.size e ≤ 4 * (1 + (Nat.size e + 3) / 4) := by omega
  have he : e < 16 ^ (1 + (Nat.size e + 3) / 4) := by
    calc e < 2 ^ Nat.size e := hsz
      _ ≤ 2 ^ (4 * (1 + (Nat.size e + 3) / 4)) := Nat.pow_le_pow_right (by omega) hse
      _ = 16 ^ (1 + (Nat.size e + 3) / 4) := by
        rw [pow_mul]
        norm_num
  have := fppowLoop_eq x e (1 + (Nat.size e + 3) / 4) h1 he
    ((1 + (Nat.size e + 3) / 4) - 1) (le_refl _)
  rw [this, Nat.sub_self, pow_zero, Nat.div_one]

theorem fpInv_mul_self (x : Fq) (hx : x ≠ 0) : fpInv x * x = 1 := by
  unfold fpInv
  rw [fpPow_eq, ← pow_succ]
  have h2 : 2 < pBN := two_lt_pBN
  have : pBN - 2 + 1 = pBN - 1 := by omega
  rw [this]
  exact ZMod.pow_card_sub_one_eq_one hx

/-! ## FP2 operations transliterated from `fp2.js` (value level) -/

/-- `FP2.prototype.neg`: `m = -(a+b); t = m+b; b' = m+a; a' = t`. -/
def FP2v.negS (x : FP2v) : FP2v :=
  let m := -(x.a + x.b)
  ⟨m + x.b, m + x.a⟩

/-- `FP2.prototype.conj`: `b.neg()`. -/
def FP2v.conjS (x : FP2v) : FP2v := ⟨x.a, -x.b⟩

/-- `FP2.prototype.add`. -/
def FP2v.addS (x y : FP2v) : FP2v := ⟨x.a + y.a, x.b + y.b⟩

/-- `FP2.prototype.sub`: `m = FP2(y); m.neg(); this.add(m)`. -/
def FP2v.subS (x y : FP2v) : FP2v := FP2v.addS x (FP2v.negS y)

/-- `FP2.prototype.rsub`: `this.neg(); this.add(x)` (result `x - this`). -/
def FP2v.rsubS (x y : FP2v) : FP2v := FP2v.addS (FP2v.negS x) y

/-- `FP2.prototype.pmul` (multiply both halves by an `FP`). -/
def FP2v.pmulS (x : FP2v) (s : Fq) : FP2v := ⟨x.a * s, x.b * s⟩

/-- `FP2.prototype.imul` (multiply by a small non-negative integer; the
call sites in `ecp2.js`/`pair.js` pass `4`, `6 = 3·CURVE_B_I` and `8`). -/
def FP2v.imulS (x : FP2v) (c : Nat) : FP2v := ⟨x.a * (c : Fq), x.b * (c : Fq)⟩

/-- `FP2.prototype.sqr`: `w1 = a+b; w3 = a+a; mb = -b; b' = b·w3;
a' = (a+mb)·w1`. -/
def FP2v.sqrS (x : FP2v) : FP2v :=
  let w1 := x.a + x.b
  let w3 := x.a + x.a
  let mb := -x.b
  ⟨(x.a + mb) * w1, x.b * w3⟩

/-- `FP2.prototype.mul` (`A = a·ya`, `B = b·yb`, `E = (a+b)(ya+yb)`,
`a' = A - B` via `pR`-lift, `b' = E - (A+B)`). -/
def FP2v.mulS (x y : FP2v) : FP2v :=
  let A := x.a * y.a
  let B := x.b * y.b
  let C := x.a + x.b
  let D := y.a + y.b
  let E := C * D
  let Fs := A + B
  ⟨A - B, E - Fs⟩

/-- `FP2.prototype.times_i`: `(a, b) ↦ (-b, a)`. -/
def FP2v.timesiS (x : FP2v) : FP2v := ⟨-x.b, x.a⟩

/-- `FP2.prototype.mul_ip` (multiply by `1+i`): `(a,b) ↦ (-b, a)` then add
the saved copy. -/
def FP2v.mulipS (x : FP2v) : FP2v := ⟨-x.b + x.a, x.a + x.b⟩

/-- `FP2.prototype.div_ip2` (divide by `(1+i)/2`, i.e. multiply by `1-i`):
`t.a = a+b; t.b = b-a`. -/
def FP2v.divip2S (x : FP2v) : FP2v := ⟨x.a + x.b, x.b - x.a⟩

/-- `(p+1)/2`, the field inverse of `2` (`FP.div2` divides by two via the
shift-with-modulus-correction; its value is multiplication by `2⁻¹`). -/
def halfFq : Fq := (0x1291B24120000000DD1A26C0000000043090800000000009D38000000000000A : Fq)

/-- `FP2.prototype.div2` on both halves. -/
def FP2v.div2S (x : FP2v) : FP2v := ⟨x.a * halfFq, x.b * halfFq⟩

/-- `FP2.prototype.div_ip`: `div_ip2` then `div2`. -/
def FP2v.divipS (x : FP2v) : FP2v := FP2v.div2S (FP2v.divip2S x)

/-- `FP2.prototype.inverse`: `w1 = a² + b²; w1.inverse(); a' = a·w1;
b' = b·(-w1)`. -/
def FP2v.invS (x : FP2v) : FP2v :=
  let w1 := x.a * x.a + x.b * x.b
  let t := fpInv w1
  ⟨x.a * t, x.b * -t⟩

theorem two_mul_halfFq : (2 : Fq) * halfFq = 1 := by decide

theorem f2negS_eq (x : FP2v) : FP2v.negS x = -x := by
  ext <;> simp [FP2v.negS] <;> ring
theorem f2addS_eq (x y : FP2v) : FP2v.addS x y = x + y := rfl
theorem f2subS_eq (x y : FP2v) : FP2v.subS x y = x - y := by
  ext <;> simp [FP2v.subS, FP2v.addS, FP2v.negS] <;> ring
theorem f2rsubS_eq (x y : FP2v) : FP2v.rsubS x y = y - x := by
  ext <;> simp [FP2v.rsubS, FP2v.addS, FP2v.negS] <;> ring
theorem f2mulS_eq (x y : FP2v) : FP2v.mulS x y = x * y := by
  ext <;> simp [FP2v.mulS] <;> ring
theorem f2sqrS_eq (x : FP2v) : FP2v.sqrS x = x * x := by
  ext <;> simp [FP2v.sqrS] <;> ring
theorem f2timesiS_eq (x : FP2v) : FP2v.timesiS x = (⟨0, 1⟩ : FP2v) * x := by
  ext <;> simp [FP2v.timesiS] <;> ring
theorem f2mulipS_eq (x : FP2v) : FP2v.mulipS x = xi2 * x := by
  ext <;> simp [FP2v.mulipS, xi2] <;> ring
theorem f2pmulS_eq (x : FP2v) (s : Fq) : FP2v.pmulS x s = x * ⟨s, 0⟩ := by
  ext <;> simp [FP2v.pmulS] <;> ring
theorem f2imulS_eq (x : FP2v) (c : Nat) : FP2v.imulS x c = x * ⟨(c : Fq), 0⟩ := by
  ext <;> simp [FP2v.imulS] <;> ring

/-! ## FP4 operations transliterated from `fp4.js` (value level) -/

/-- `FP4.prototype.conj`: `b.neg()`. -/
def FP4v.conjS (x : FP4v) : FP4v := ⟨x.a, FP2v.negS x.b⟩

/-- `FP4.prototype.nconj`: `a.neg()`. -/
def FP4v.nconjS (x : FP4v) : FP4v := ⟨FP2v.negS x.a, x.b⟩

/-- `FP4.prototype.add`. -/
def FP4v.addS (x y : FP4v) : FP4v := ⟨FP2v.addS x.a y.a, FP2v.addS x.b y.b⟩

/-- `FP4.prototype.neg`: `m = (a+b).neg(); t = m+b; b' = m+a; a' = t`. -/
def FP4v.negS (x : FP4v) : FP4v :=
  let m := FP2v.negS (FP2v.addS x.a x.b)
  ⟨FP2v.addS m x.b, FP2v.addS m x.a⟩

/-- `FP4.prototype.sub`: `add` the negation. -/
def FP4v.subS (x y : FP4v) : FP4v := FP4v.addS x (FP4v.negS y)

/-- `FP4.prototype.dbl`. -/
def FP4v.dblS (x : FP4v) : FP4v := FP4v.addS x x

/-- `FP4.prototype.pmul` (multiply by an `FP2`). -/
def FP4v.pmulS (x : FP4v) (s : FP2v) : FP4v := ⟨FP2v.mulS x.a s, FP2v.mulS x.b s⟩

/-- `FP4.prototype.imul`. -/
def FP4v.imulS (x : FP4v) (c : Nat) : FP4v := ⟨FP2v.imulS x.a c, FP2v.imulS x.b c⟩

/-- `FP4.prototype.times_i`: `s = b.times_i(); t = b + s; b' = a; a' = t`. -/
def FP4v.timesiS (x : FP4v) : FP4v :=
  let s := FP2v.timesiS x.b
  let t := FP2v.addS x.b s
  ⟨t, x.a⟩

/-- `FP4.prototype.mul` (Karatsuba over `FP2` with the `1+i` twist):
`t1 = a·ya`, `t2 = b·yb`, `t3 = ya+yb`, `t4 = (b+a)·t3 - t1`,
`a' = mul_ip(t2) + t1`, `b' = t4 - t2`. -/
def FP4v.mulS (x y : FP4v) : FP4v :=
  let t1 := FP2v.mulS x.a y.a
  let t2 := FP2v.mulS x.b y.b
  let t3 := FP2v.addS y.b y.a
  let t4 := FP2v.subS (FP2v.mulS (FP2v.addS x.b x.a) t3) t1
  ⟨FP2v.addS (FP2v.mulipS t2) t1, FP2v.subS t4 t2⟩

/-- `FP4.prototype.sqr`: `t1 = a+b`, `t2 = mul_ip(b)+a`, `t3 = a·b`,
`a' = t1·t2 - (mul_ip(t3)+t3)`, `b' = t3+t3`. -/
def FP4v.sqrS (x : FP4v) : FP4v :=
  let t1 := FP2v.addS x.a x.b
  let t2 := FP2v.addS (FP2v.mulipS x.b) x.a
  let t3 := FP2v.mulS x.a x.b
  ⟨FP2v.subS (FP2v.mulS t1 t2) (FP2v.addS (FP2v.mulipS t3) t3), FP2v.addS t3 t3⟩

theorem f4addS_eq (x y : FP4v) : FP4v.addS x y = x + y := rfl

theorem f4negS_eq (x : FP4v) : FP4v.negS x = -x := by
  ext <;> simp [FP4v.negS, FP2v.negS, FP2v.addS] <;> ring

theorem f4subS_eq (x y : FP4v) : FP4v.subS x y = x - y := by
  ext <;> simp [FP4v.subS, FP4v.addS, FP4v.negS, FP2v.negS, FP2v.addS] <;> ring

theorem f4dblS_eq (x : FP4v) : FP4v.dblS x = x + x := rfl

theorem f4mulS_eq (x y : FP4v) : FP4v.mulS x y = x * y := by
  ext <;>
    simp [FP4v.mulS, FP2v.mulS, FP2v.addS, FP2v.subS, FP2v.negS, FP2v.mulipS, xi2] <;>
    ring

theorem f4sqrS_eq (x : FP4v) : FP4v.sqrS x = x * x := by
  ext <;>
    simp [FP4v.sqrS, FP2v.mulS, FP2v.addS, FP2v.subS, FP2v.negS, FP2v.mulipS, xi2] <;>
    ring

theorem f4timesiS_eq (x : FP4v) : FP4v.timesiS x = jc * x := by
  ext <;>
    simp [FP4v.timesiS, FP2v.timesiS, FP2v.addS, jc, xi2] <;>
    ring

theorem f4pmulS_eq (x : FP4v) (s : FP2v) : FP4v.pmulS x s = x * ⟨s, 0⟩ := by
  ext <;>
    simp [FP4v.pmulS, FP2v.mulS, xi2] <;>
    ring

theorem f4imulS_eq (x : FP4v) (c : Nat) :
    FP4v.imulS x c = x * ⟨⟨(c : Fq), 0⟩, 0⟩ := by
  ext <;>
    simp [FP4v.imulS, FP2v.imulS, xi2] <;>
    ring

theorem f4conjS_mul (x y : FP4v) :
    FP4v.conjS (x * y) = FP4v.conjS x * FP4v.conjS y := by
  ext <;>
    simp [FP4v.conjS, FP2v.negS, xi2] <;>
    ring

/-! ## FP12 with sparsity tag, transliterated from `fp12.js`

`fp12.js` tracks a sparsity tag `stype` (`FP.ZERO = 0`, `FP.ONE = 1`,
`FP.SPARSER = 2`, `FP.SPARSE = 3`, `FP.DENSE = 4`) alongside the three `FP4`
coefficients, and `ssmul` dispatches on it.  The multiplication routines
follow the `ECP.SEXTIC_TWIST === ECP.D_TYPE` branches.
`Modelled from the spec:` `ecp-common` (which assigns `ECP.SEXTIC_TWIST`) is
not under `src/`; the D-type layout is the one the line function of
`pair.js` produces (`b = FP4(XX)`, `c = 0`, `div_ip2` untwist), so
`SEXTIC_TWIST = D_TYPE` here. -/

/-- An `FP12` as stored by `fp12.js`: coefficients `a`, `b`, `c` and the
sparsity tag `stype`. -/
structure FP12s where
  a : FP4v
  b : FP4v
  c : FP4v
  stype : Nat
deriving DecidableEq

/-- The field value carried by an `FP12` (forgetting the sparsity tag). -/
def FP12s.val (x : FP12s) : FP12c := ⟨x.a, x.b, x.c⟩

/-- `new FP12(1)`: the constructor with `d === 1` sets `one()`… with
`stype = FP.ONE` (fp12.js line 58). -/
def FP12s.oneS : FP12s := ⟨1, 0, 0, 1⟩

/-- `FP12.prototype.conj`: `a.conj(); b.nconj(); c.conj()` (tag untouched). -/
def FP12s.conjS (x : FP12s) : FP12s :=
  ⟨FP4v.conjS x.a, FP4v.nconjS x.b, FP4v.conjS x.c, x.stype⟩

/-- `FP12.prototype.mul` (full Karatsuba/Toom multiplication; always sets
`stype = FP.DENSE`). -/
def FP12s.mulS (x y : FP12s) : FP12s :=
  let z0 := FP4v.mulS x.a y.a
  let z2 := FP4v.mulS x.b y.b
  let z1 := FP4v.mulS (FP4v.addS x.a x.b) (FP4v.addS y.a y.b)
  let z3 := FP4v.mulS (FP4v.addS x.b x.c) (FP4v.addS y.b y.c)
  let t0 := FP4v.negS z0
  let t1 := FP4v.negS z2
  let z1' := FP4v.addS z1 t0
  let b1 := FP4v.addS z1' t1
  let z3' := FP4v.addS z3 t1
  let z2' := FP4v.addS z2 t0
  let z2'' := FP4v.addS z2' (FP4v.mulS (FP4v.addS x.a x.c) (FP4v.addS y.a y.c))
  let t0c := FP4v.mulS x.c y.c
  let t1c := FP4v.negS t0c
  let c1 := FP4v.addS z2'' t1c
  let z3'' := FP4v.addS z3' t1c
  let b2 := FP4v.addS b1 (FP4v.timesiS t0c)
  let a1 := FP4v.addS z0 (FP4v.timesiS z3'')
  ⟨a1, b2, c1, 4⟩

/-- `FP12.prototype.sqr` (Chung–Hasan; a no-op on `stype = FP.ONE`, and the
tag goes `SPARSER → SPARSE`, otherwise `DENSE`). -/
def FP12s.sqrS (x : FP12s) : FP12s :=
  if x.stype = 1 then x
  else
    let A := FP4v.sqrS x.a
    let B := FP4v.addS (FP4v.mulS x.b x.c) (FP4v.mulS x.b x.c)
    let C := FP4v.sqrS x.c
    let D := FP4v.addS (FP4v.mulS x.a x.b) (FP4v.mulS x.a x.b)
    let c1 := FP4v.sqrS (FP4v.addS (FP4v.addS x.c x.a) x.b)
    let An := FP4v.negS (FP4v.addS (FP4v.addS (FP4v.addS A B) C) D)
    ⟨FP4v.addS A (FP4v.timesiS B),
   FP4v.addS (FP4v.timesiS C) D,
   FP4v.addS c1 An,
   if x.stype = 2 then 3 else 4⟩

/-- `FP12.prototype.usqr` (Granger–Scott squaring for the cyclotomic
subgroup; always sets `stype = FP.DENSE`). -/
def FP12s.usqrS (x : FP12s) : FP12s :=
  let a1 := FP4v.sqrS x.a
  let a2 := FP4v.addS a1 (FP4v.addS a1 a1)
  let An := FP4v.nconjS x.a
  let a3 := FP4v.addS a2 (FP4v.addS An An)
  let B1 := FP4v.timesiS (FP4v.sqrS x.c)
  let B2 := FP4v.addS B1 (FP4v.addS B1 B1)
  let C1 := FP4v.sqrS x.b
  let C2 := FP4v.addS C1 (FP4v.addS C1 C1)
  let b1 := FP4v.conjS x.b
  let c1 := FP4v.nconjS x.c
  ⟨a3, FP4v.addS (FP4v.addS b1 b1) B2, FP4v.addS (FP4v.addS c1 c1) C2, 4⟩

/-- `FP12.prototype.smul` (two sparser line functions, D-type branch;
sets `stype = FP.SPARSE`). -/
def FP12s.smulS (x y : FP12s) : FP12s :=
  let w1 := FP2v.mulS x.a.a y.a.a
  let w2 := FP2v.mulS x.a.b y.a.b
  let w3 := FP2v.mulS x.b.a y.b.a
  let tc := FP2v.addS (FP2v.mulS (FP2v.addS x.a.a x.a.b) (FP2v.addS y.a.a y.a.b))
    (FP2v.negS (FP2v.addS w1 w2))
  let td := FP2v.addS (FP2v.mulS (FP2v.addS x.a.a x.b.a) (FP2v.addS y.a.a y.b.a))
    (FP2v.negS (FP2v.addS w1 w3))
  let te := FP2v.addS (FP2v.mulS (FP2v.addS x.a.b x.b.a) (FP2v.addS y.a.b y.b.a))
    (FP2v.negS (FP2v.addS w2 w3))
  let w1' := FP2v.addS w1 (FP2v.mulipS w2)
  ⟨⟨w1', tc⟩, ⟨td, te⟩, ⟨w3, 0⟩, 3⟩

/-- `FP12.prototype.ssmul` (sparse-aware full multiplication; D-type
branches).  `ONE` operands short-circuit; `y.stype ≥ SPARSE` runs the dense
algorithm with a sparse `c·y.c` product; a `SPARSER` receiver delegates to
`smul`; otherwise the dense-by-sparser 13-multiplication block runs. -/
def FP12s.ssmulS (x y : FP12s) : FP12s :=
  if x.stype = 1 then y
  else if y.stype = 1 then x
  else if 3 ≤ y.stype then
    let z0 := FP4v.mulS x.a y.a
    let z2 := FP4v.mulS x.b y.b
    let z1 := FP4v.mulS (FP4v.addS x.a x.b) (FP4v.addS y.a y.b)
    let z3 := FP4v.mulS (FP4v.addS x.b x.c) (FP4v.addS y.b y.c)
    let t0 := FP4v.negS z0
    let t1 := FP4v.negS z2
    let z1' := FP4v.addS z1 t0
    let b1 := FP4v.addS z1' t1
    let z3' := FP4v.addS z3 t1
    let z2' := FP4v.addS z2 t0
    let z2'' := FP4v.addS z2' (FP4v.mulS (FP4v.addS x.a x.c) (FP4v.addS y.a y.c))
    let t0c :=
      if y.stype = 3 ∨ x.stype = 3 then
        (⟨FP2v.mulS x.c.a y.c.a,
          if y.stype ≠ 3 then FP2v.mulS x.c.a y.c.b
          else if x.stype ≠ 3 then FP2v.mulS x.c.b y.c.a
          else 0⟩ : FP4v)
      else FP4v.mulS x.c y.c
    let t1c := FP4v.negS t0c
    let c1 := FP4v.addS z2'' t1c
    let z3'' := FP4v.addS z3' t1c
    let b2 := FP4v.addS b1 (FP4v.timesiS t0c)
    let a1 := FP4v.addS z0 (FP4v.timesiS z3'')
    ⟨a1, b2, c1, 4⟩
  else if x.stype = 2 then FP12s.smulS x y
  else
    let z0 := FP4v.mulS x.a y.a
    let z2 := FP4v.pmulS x.b y.b.a
    let b0 := FP4v.mulS (FP4v.addS x.b x.a) ⟨FP2v.addS y.a.a y.b.a, y.a.b⟩
    let z3 := FP4v.pmulS (FP4v.addS x.b x.c) y.b.a
    let t0 := FP4v.negS z0
    let t1 := FP4v.negS z2
    let b1 := FP4v.addS (FP4v.addS b0 t0) t1
    let z3' := FP4v.addS z3 t1
    let z2' := FP4v.addS z2 t0
    let c1 := FP4v.addS z2' (FP4v.mulS (FP4v.addS x.a x.c) y.a)
    let a1 := FP4v.addS z0 (FP4v.timesiS z3')
    ⟨a1, b1, c1, 4⟩

/-- The loop body of `FP12.prototype.pow` after `s` iterations (the
iteration at offset `s` handles bit `i = nb - 2 - s` of the `3e`/`e`
recoding: `usqr`, then `mul sf` on digit `+1`, `mul (conj sf)` on `-1`). -/
def f12powSteps (sf : FP12s) (e3 e1 nb : Nat) : Nat → FP12s
  | 0 => sf
  | s + 1 =>
    let w := FP12s.usqrS (f12powSteps sf e3 e1 nb s)
    let i := nb - 2 - s
    if e3 / 2 ^ i % 2 = 1 ∧ e1 / 2 ^ i % 2 = 0 then FP12s.mulS w sf
    else if e3 / 2 ^ i % 2 = 0 ∧ e1 / 2 ^ i % 2 = 1 then
      FP12s.mulS w (FP12s.conjS sf)
    else w

/-- `FP12.prototype.pow`: `e3 = 3·e`, `nb = nbits(e3)`, `w = sf = this`,
then the loop runs `i = nb-2` down to `1` (`nb - 2` iterations) and `w` is
returned (for `e = 0` the loop is empty and `pow` returns `this` itself). -/
def FP12s.powS (x : FP12s) (e : Nat) : FP12s :=
  let e3 := 3 * e
  let nb := Nat.size e3
  f12powSteps x e3 e nb (nb - 2)

/-! ## The cyclotomic condition behind `usqr`

`usqr` (Granger–Scott) is a correct squaring only on the cyclotomic
subgroup `G_{Φ₆(p²)} ⊆ F_{p¹²}^*`.  Membership is expressed through the
`p²`-power Frobenius `phi2`: `x ∈ G_{Φ₆(p²)}` iff `x^(p⁴) · x = x^(p²)`,
i.e. `phi2 (phi2 x) * x = phi2 x`.  On the tower basis `phi2` acts
diagonally: it fixes `F_{p²}`-coefficients up to the 12th root of unity
`wfr = 2^((p-1)/6) mod p ∈ F_p`, a primitive 6th root of unity
(`wfr² = wfr - 1`, hence `wfr³ = -1`). -/

/-- `2^((p-1)/6) mod p`, the scalar by which the `p²`-Frobenius multiplies
the degree-1 basis coefficients. -/
def wfr : Fq := 0x49B36240000000024909000000000006CD80000000000008

/-- `wfr` embedded in `FP2v`. -/
def wF2 : FP2v := ⟨wfr, 0⟩

theorem wfr_sq : wfr * wfr = wfr - 1 := by decide

theorem wF2_sq : wF2 * wF2 = wF2 - 1 := by
  ext <;> simp [wF2] <;> simp [wfr_sq] <;> ring

/-- The `p²`-power Frobenius of `F_{p¹²}`, diagonal on the tower basis
`v^l j^k` with scalar `wfr^(l+3k)` (`wfr³ = -1`). -/
def phi2 (v : FP12c) : FP12c :=
  ⟨⟨v.a.a, -v.a.b⟩,
   ⟨wF2 * v.b.a, -(wF2 * v.b.b)⟩,
   ⟨wF2 * (wF2 * v.c.a), -(wF2 * (wF2 * v.c.b))⟩⟩

/-- Membership in the cyclotomic subgroup: `x^(p⁴)·x = x^(p²)`. -/
def cycRel (v : FP12c) : Prop := phi2 (phi2 v) * v = phi2 v

instance (v : FP12c) : Decidable (cycRel v) :=
  inferInstanceAs (Decidable (phi2 (phi2 v) * v = phi2 v))

/-- Unitarity: the conjugate is the inverse. -/
def unitaryRel (v : FP12c) : Prop := v * FP12c.conj v = 1

instance (v : FP12c) : Decidable (unitaryRel v) :=
  inferInstanceAs (Decidable (v * FP12c.conj v = 1))

theorem phi2_mul (v u : FP12c) : phi2 (v * u) = phi2 v * phi2 u := by
  have e0 : (phi2 (v * u)).a.a = (phi2 v * phi2 u).a.a := by
    simp only [phi2, f12mul_a, f12mul_b, f12mul_c, f4mul_a, f4mul_b, f4add_a,
      f4add_b, f4neg_a, f4neg_b, jc, f2mul_a, f2mul_b]
    linear_combination (xi2 * (1 + wF2) *
      (v.c.b * u.b.a + v.c.a * u.b.b + v.b.b * u.c.a + v.b.a * u.c.b)) * wF2_sq
  have e1 : (phi2 (v * u)).a.b = (phi2 v * phi2 u).a.b := by
    simp only [phi2, f12mul_a, f12mul_b, f12mul_c, f4mul_a, f4mul_b, f4add_a,
      f4add_b, f4neg_a, f4neg_b, jc, f2mul_a, f2mul_b]
    linear_combination (-(1 + wF2) *
      (v.c.a * u.b.a + v.b.a * u.c.a + xi2 * (v.c.b * u.b.b + v.b.b * u.c.b))) * wF2_sq
  have e2 : (phi2 (v * u)).b.a = (phi2 v * phi2 u).b.a := by
    simp only [phi2, f12mul_a, f12mul_b, f12mul_c, f4mul_a, f4mul_b, f4add_a,
      f4add_b, f4neg_a, f4neg_b, jc, f2mul_a, f2mul_b]
    linear_combination (xi2 * (wF2 + wF2 ^ 2) *
      (v.c.b * u.c.a + v.c.a * u.c.b)) * wF2_sq
  have e3 : (phi2 (v * u)).b.b = (phi2 v * phi2 u).b.b := by
    simp only [phi2, f12mul_a, f12mul_b, f12mul_c, f4mul_a, f4mul_b, f4add_a,
      f4add_b, f4neg_a, f4neg_b, jc, f2mul_a, f2mul_b]
    linear_combination (-(wF2 + wF2 ^ 2) *
      (v.c.a * u.c.a + xi2 * (v.c.b * u.c.b))) * wF2_sq
  have e4 : (phi2 (v * u)).c.a = (phi2 v * phi2 u).c.a := by
    simp only [phi2, f12mul_a, f12mul_b, f12mul_c, f4mul_a, f4mul_b, f4add_a,
      f4add_b, f4neg_a, f4neg_b, jc, f2mul_a, f2mul_b]
    ring
  have e5 : (phi2 (v * u)).c.b = (phi2 v * phi2 u).c.b := by
    simp only [phi2, f12mul_a, f12mul_b, f12mul_c, f4mul_a, f4mul_b, f4add_a,
      f4add_b, f4neg_a, f4neg_b, jc, f2mul_a, f2mul_b]
    ring
  exact FP12c.ext (FP4v.ext e0 e1) (FP4v.ext e2 e3) (FP4v.ext e4 e5)

theorem phi2_one : phi2 1 = 1 := by
  ext1 <;> ext1 <;> simp [phi2]

theorem cycRel_one : cycRel 1 := by
  unfold cycRel
  rw [phi2_one, phi2_one, one_mul]

theorem cycRel_mul {v u : FP12c} (hv : cycRel v) (hu : cycRel u) :
    cycRel (v * u) := by
  unfold cycRel at *
  rw [phi2_mul, phi2_mul]
  calc phi2 (phi2 v) * phi2 (phi2 u) * (v * u)
      = phi2 (phi2 v) * v * (phi2 (phi2 u) * u) := by ring
    _ = phi2 v * phi2 u := by rw [hv, hu]

theorem cycRel_pow {v : FP12c} (hv : cycRel v) (k : Nat) : cycRel (v ^ k) := by
  induction k with
  | zero => simpa using cycRel_one
  | succ n ih => rw [pow_succ]; exact cycRel_mul ih hv

theorem f12conjS_val (x : FP12s) : (FP12s.conjS x).val = FP12c.conj x.val := by
  ext1 <;> ext1 <;>
    simp [FP12s.conjS, FP12s.val, FP12c.conj, FP4v.conjS, FP4v.nconjS, f2negS_eq]

theorem f12mulS_val (x y : FP12s) : (FP12s.mulS x y).val = x.val * y.val := by
  ext1 <;>
    simp only [FP12s.mulS, FP12s.val, f4mulS_eq, f4addS_eq, f4negS_eq,
      f4timesiS_eq, f12mul_a, f12mul_b, f12mul_c] <;>
    ring

theorem f12sqrS_val (x : FP12s) (h1 : x.stype = 1 → x.val = 1) :
    (FP12s.sqrS x).val = x.val * x.val := by
  unfold FP12s.sqrS
  by_cases hs : x.stype = 1
  · rw [if_pos hs, h1 hs]
    simp
  · rw [if_neg hs]
    ext1 <;>
      simp only [FP12s.val, f4mulS_eq, f4addS_eq, f4negS_eq, f4sqrS_eq,
        f4timesiS_eq, f12mul_a, f12mul_b, f12mul_c] <;>
      ring

theorem f12usqrS_val (x : FP12s) (hc : cycRel x.val) :
    (FP12s.usqrS x).val = x.val * x.val := by
  unfold cycRel at hc
  have h0 := congrArg (fun z : FP12c => z.a.a) hc
  have h1 := congrArg (fun z : FP12c => z.a.b) hc
  have h2 := congrArg (fun z : FP12c => z.b.a) hc
  have h3 := congrArg (fun z : FP12c => z.b.b) hc
  have h4 := congrArg (fun z : FP12c => z.c.a) hc
  have h5 := congrArg (fun z : FP12c => z.c.b) hc
  simp only [phi2, FP12s.val, f12mul_a, f12mul_b, f12mul_c, f4mul_a, f4mul_b,
    f4add_a, f4add_b, f4neg_a, f4neg_b, jc, f2mul_a, f2mul_b] at h0 h1 h2 h3 h4 h5
  have e0 : (FP12s.usqrS x).val.a.a = (x.val * x.val).a.a := by
    simp only [FP12s.usqrS, FP12s.val, f4sqrS_eq, f4addS_eq, f4timesiS_eq,
      FP4v.conjS, FP4v.nconjS, f2negS_eq, f12mul_a, f12mul_b, f12mul_c,
      f4mul_a, f4mul_b, f4add_a, f4add_b, f4neg_a, f4neg_b, jc]
    linear_combination (2 : FP2v) * h0 +
      (-2 * xi2 * (1 + wF2 + wF2 ^ 2) * (x.b.b * x.c.a + x.b.a * x.c.b)) * wF2_sq
  have e1 : (FP12s.usqrS x).val.a.b = (x.val * x.val).a.b := by
    simp only [FP12s.usqrS, FP12s.val, f4sqrS_eq, f4addS_eq, f4timesiS_eq,
      FP4v.conjS, FP4v.nconjS, f2negS_eq, f12mul_a, f12mul_b, f12mul_c,
      f4mul_a, f4mul_b, f4add_a, f4add_b, f4neg_a, f4neg_b, jc]
    linear_combination (2 : FP2v) * h1 +
      (-2 * (1 + wF2 + wF2 ^ 2) * (x.b.a * x.c.a + xi2 * (x.b.b * x.c.b))) * wF2_sq
  have e2 : (FP12s.usqrS x).val.b.a = (x.val * x.val).b.a := by
    simp only [FP12s.usqrS, FP12s.val, f4sqrS_eq, f4addS_eq, f4timesiS_eq,
      FP4v.conjS, FP4v.nconjS, f2negS_eq, f12mul_a, f12mul_b, f12mul_c,
      f4mul_a, f4mul_b, f4add_a, f4add_b, f4neg_a, f4neg_b, jc]
    linear_combination (2 * wF2 ^ 2) * h2 +
      ((1 + wF2) * (2 * x.b.a - 2 * x.a.a * x.b.a + 4 * xi2 * (x.c.a * x.c.b)
          - 2 * xi2 * (x.a.b * x.b.b))
        + wF2 ^ 2 * (-2 * (x.a.a * x.b.a) - 2 * xi2 * (x.a.b * x.b.b))
        - 4 * (wF2 ^ 3 + wF2 ^ 4) * xi2 * (x.c.a * x.c.b)) * wF2_sq
  have e3 : (FP12s.usqrS x).val.b.b = (x.val * x.val).b.b := by
    simp only [FP12s.usqrS, FP12s.val, f4sqrS_eq, f4addS_eq, f4timesiS_eq,
      FP4v.conjS, FP4v.nconjS, f2negS_eq, f12mul_a, f12mul_b, f12mul_c,
      f4mul_a, f4mul_b, f4add_a, f4add_b, f4neg_a, f4neg_b, jc]
    linear_combination (2 * wF2 ^ 2) * h3 +
      ((1 + wF2) * (2 * x.c.a ^ 2 - 2 * x.b.b - 2 * x.a.b * x.b.a
          - 2 * x.a.a * x.b.b + 2 * xi2 * x.c.b ^ 2)
        + wF2 ^ 2 * (-2 * (x.a.b * x.b.a) - 2 * (x.a.a * x.b.b))
        - 2 * (wF2 ^ 3 + wF2 ^ 4) * (x.c.a ^ 2 + xi2 * x.c.b ^ 2)) * wF2_sq
  have e4 : (FP12s.usqrS x).val.c.a = (x.val * x.val).c.a := by
    simp only [FP12s.usqrS, FP12s.val, f4sqrS_eq, f4addS_eq, f4timesiS_eq,
      FP4v.conjS, FP4v.nconjS, f2negS_eq, f12mul_a, f12mul_b, f12mul_c,
      f4mul_a, f4mul_b, f4add_a, f4add_b, f4neg_a, f4neg_b, jc]
    linear_combination (-2 * wF2) * h4 +
      ((1 + wF2) * (-2 * x.c.a + 2 * x.b.a ^ 2 + 2 * xi2 * x.b.b ^ 2)
        - 2 * (x.a.a * x.c.a + xi2 * (x.a.b * x.c.b))
        + 2 * (wF2 ^ 2 + wF2 ^ 3) * (x.a.a * x.c.a + xi2 * (x.a.b * x.c.b))) * wF2_sq
  have e5 : (FP12s.usqrS x).val.c.b = (x.val * x.val).c.b := by
    simp only [FP12s.usqrS, FP12s.val, f4sqrS_eq, f4addS_eq, f4timesiS_eq,
      FP4v.conjS, FP4v.nconjS, f2negS_eq, f12mul_a, f12mul_b, f12mul_c,
      f4mul_a, f4mul_b, f4add_a, f4add_b, f4neg_a, f4neg_b, jc]
    linear_combination (-2 * wF2) * h5 +
      ((1 + wF2) * (2 * x.c.b + 4 * x.b.a * x.b.b)
        - 2 * (x.a.b * x.c.a + x.a.a * x.c.b)
        + 2 * (wF2 ^ 2 + wF2 ^ 3) * (x.a.b * x.c.a + x.a.a * x.c.b)) * wF2_sq
  exact FP12c.ext (FP4v.ext e0 e1) (FP4v.ext e2 e3) (FP4v.ext e4 e5)

theorem f12powSteps_val (x : FP12s) (e : Nat) (he : 1 ≤ e)
    (hu : unitaryRel x.val) (hc : cycRel x.val) :
    ∀ s, s ≤ Nat.size (3 * e) - 2 →
      1 ≤ 3 * e / 2 ^ (Nat.size (3 * e) - 1 - s) - e / 2 ^ (Nat.size (3 * e) - 1 - s) ∧
      (f12powSteps x (3 * e) e (Nat.size (3 * e)) s).val
        = x.val ^ (3 * e / 2 ^ (Nat.size (3 * e) - 1 - s)
            - e / 2 ^ (Nat.size (3 * e) - 1 - s)) := by
  intro s
  induction s with
  | zero =>
    intro _
    have hnb1 : 0 < Nat.size (3 * e) := Nat.size_pos.mpr (by omega)
    have htop : 2 ^ (Nat.size (3 * e) - 1) ≤ 3 * e :=
      Nat.lt_size.mp (by omega)
    have hlt : 3 * e < 2 ^ Nat.size (3 * e) := Nat.lt_size_self _
    have h2 : 2 ^ Nat.size (3 * e) = 2 * 2 ^ (Nat.size (3 * e) - 1) := by
      conv_lhs => rw [show Nat.size (3 * e) = (Nat.size (3 * e) - 1) + 1 by omega]
      rw [pow_succ]
      ring
    have hpos : 0 < 2 ^ (Nat.size (3 * e) - 1) := Nat.pos_pow_of_pos _ (by omega)
    have hq3 : 3 * e / 2 ^ (Nat.size (3 * e) - 1) = 1 := by
      have ha : 1 ≤ 3 * e / 2 ^ (Nat.size (3 * e) - 1) :=
        (Nat.le_div_iff_mul_le hpos).mpr (by omega)
      have hb : 3 * e / 2 ^ (Nat.size (3 * e) - 1) < 2 :=
        (Nat.div_lt_iff_lt_mul hpos).mpr (by omega)
      omega
    have hq1 : e / 2 ^ (Nat.size (3 * e) - 1) = 0 := Nat.div_eq_of_lt (by omega)
    refine ⟨by rw [Nat.sub_zero, hq3, hq1], ?_⟩
    simp only [f12powSteps, Nat.sub_zero]
    rw [hq3, hq1]
    simp
  | succ s ih =>
    intro hs1
    obtain ⟨hX1, hval⟩ := ih (by omega)
    set nb := Nat.size (3 * e) with hnbdef
    have hidx : nb - 1 - s = (nb - 2 - s) + 1 := by omega
    set i := nb - 2 - s with hidef
    rw [hidx] at hX1 hval
    have hdd3 : 3 * e / 2 ^ (i + 1) = 3 * e / 2 ^ i / 2 := by
      rw [pow_succ, Nat.div_div_eq_div_mul]
    have hdd1 : e / 2 ^ (i + 1) = e / 2 ^ i / 2 := by
      rw [pow_succ, Nat.div_div_eq_div_mul]
    have hm3 := Nat.div_add_mod (3 * e / 2 ^ i) 2
    have hm1 := Nat.div_add_mod (e / 2 ^ i) 2
    have hb3 : 3 * e / 2 ^ i % 2 < 2 := Nat.mod_lt _ (by omega)
    have hb1 : e / 2 ^ i % 2 < 2 := Nat.mod_lt _ (by omega)
    have hidx2 : nb - 1 - (s + 1) = i := by omega
    have hw : (FP12s.usqrS (f12powSteps x (3 * e) e nb s)).val
        = x.val ^ (2 * (3 * e / 2 ^ (i + 1) - e / 2 ^ (i + 1))) := by
      rw [f12usqrS_val _ (by rw [hval]; exact cycRel_pow hc _), hval, ← pow_add]
      congr 1
      omega
    refine ⟨by rw [hidx2]; omega, ?_⟩
    rw [hidx2]
    simp only [f12powSteps]
    by_cases hA : 3 * e / 2 ^ i % 2 = 1 ∧ e / 2 ^ i % 2 = 0
    · rw [if_pos hA, f12mulS_val, hw, ← pow_succ]
      congr 1
      omega
    · by_cases hB : 3 * e / 2 ^ i % 2 = 0 ∧ e / 2 ^ i % 2 = 1
      · rw [if_neg hA, if_pos hB, f12mulS_val, hw, f12conjS_val]
        have h2X : 2 * (3 * e / 2 ^ (i + 1) - e / 2 ^ (i + 1))
            = (2 * (3 * e / 2 ^ (i + 1) - e / 2 ^ (i + 1)) - 1) + 1 := by omega
        rw [h2X, pow_succ]
        calc x.val ^ (2 * (3 * e / 2 ^ (i + 1) - e / 2 ^ (i + 1)) - 1) * x.val
              * FP12c.conj x.val
            = x.val ^ (2 * (3 * e / 2 ^ (i + 1) - e / 2 ^ (i + 1)) - 1)
              * (x.val * FP12c.conj x.val) := by ring
          _ = x.val ^ (2 * (3 * e / 2 ^ (i + 1) - e / 2 ^ (i + 1)) - 1) := by
              rw [hu, mul_one]
          _ = x.val ^ (3 * e / 2 ^ i - e / 2 ^ i) := by congr 1; omega
      · rw [if_neg hA, if_neg hB, hw]
        congr 1
        omega

theorem f12powS_val (x : FP12s) (hu : unitaryRel x.val) (hc : cycRel x.val)
    (e : Nat) (he : 1 ≤ e) : (FP12s.powS x e).val = x.val ^ e := by
  have h := (f12powSteps_val x e he hu hc (Nat.size (3 * e) - 2) (le_refl _)).2
  simp only [FP12s.powS]
  rw [h]
  congr 1
  have hnb2 : 1 < Nat.size (3 * e) := Nat.lt_size.mpr (by omega)
  have hidx : Nat.size (3 * e) - 1 - (Nat.size (3 * e) - 2) = 1 := by omega
  rw [hidx, pow_one]
  omega

/-! ## Claim C9: the unitarity precondition of `FP12.pow` -/

/-- A concrete unitary element of `F_{p¹²}` that is *not* in the cyclotomic
subgroup (it was produced as `y·conj(y)⁻¹`, which lies in the unitary group
`x·x̄ = 1` but not in the `Φ₁₂`-subgroup). -/
def fp12UnitaryNonCyc : FP12s :=
  ⟨⟨⟨0x7B3CE52092277A4B05CECD6B39B7DC3133477F966D69EF631B4D4DD42B58556,
     0x59E3B5285D1D44AC1D3F1FCF008527FB72080520D4D11FD69308119ED3D93D⟩,
    ⟨0x1149394E9001092A8C9AC36800705D5F97D18C88F82AC05C4830D7F0EDAF2915,
     0x7B23FC7D34E33837FABE98416CD51501F431683493DF82064CB7F092A414933⟩⟩,
   ⟨⟨0x36987CB832E16A93BFA945A69AE9998B40031CD526485C6752BD3ABBA461886,
     0x2463CB5334222F8CB5040F810FA729BCD0483B1A0AA135028F030747FBCA8C81⟩,
    ⟨0x58BF07D2B202B82AD58E461C0BBCFBAA73D886C5EE7DF0AAC2EEDF122E990CB,
     0xDA19315FCF2D0F0C81778714EB548B05814E658476B9978F6C4A375398AF21C⟩⟩,
   ⟨⟨0x1743A2D875DC82D95DFC0C3079E8700764B1F55ACFEAEFA9F3763CBC288B4148,
     0xB9B5C8777116D1FEFA06EB4EF438D197643F9ECA71BB2F459AF85FD36560732⟩,
    ⟨0x1E1C34619E89F6469D122A6632DE8867D23ED23886D6F628ADBEB483DE07A1C2,
     0x23A07031DBE420051058EA5116C8BFE6D37EA0B29EB68E355ABF7E94F4635E8F⟩⟩,
   4⟩

/-- Claim C9, counterexample to the stated property: unitarity alone does
not make `FP12.prototype.pow` compute `x^e`.  The element
`fp12UnitaryNonCyc` is unitary, yet `pow` fails on it both at `e = 0`
(the loop is empty, so `pow` returns `x` itself rather than `1`) and at
`e = 2` (a single `usqr`, which is not a correct squaring outside the
cyclotomic subgroup). -/
theorem fp12_pow_unitary_insufficient :
    unitaryRel fp12UnitaryNonCyc.val
    ∧ (FP12s.powS fp12UnitaryNonCyc 0).val ≠ fp12UnitaryNonCyc.val ^ 0
    ∧ (FP12s.powS fp12UnitaryNonCyc 2).val ≠ fp12UnitaryNonCyc.val ^ 2 := by
  have hz : FP12s.powS fp12UnitaryNonCyc 0 = fp12UnitaryNonCyc := by
    simp [FP12s.powS, f12powSteps]
  have hs6 : Nat.size 6 = 3 :=
    le_antisymm (Nat.size_le.mpr (by norm_num)) (Nat.lt_size.mpr (by norm_num))
  have h2 : FP12s.powS fp12UnitaryNonCyc 2
      = FP12s.usqrS fp12UnitaryNonCyc := by
    show f12powSteps fp12UnitaryNonCyc (3 * 2) 2 (Nat.size (3 * 2)) (Nat.size (3 * 2) - 2)
      = FP12s.usqrS fp12UnitaryNonCyc
    norm_num [hs6, f12powSteps]
  refine ⟨by decide, ?_, ?_⟩
  · rw [hz]; decide
  · rw [h2]; decide

/-- Claim C9 (corrected): at `e = 0` the loop of `FP12.prototype.pow` is
empty and `pow` returns the element itself (not `1`), for *every* element;
and for every `FP12` element that is unitary *and* lies in the cyclotomic
subgroup (both hold for the output of the easy part of the final
exponentiation) and every exponent `e ≥ 1`, `pow` returns `x^e`: the `usqr`
squarings are sound under the cyclotomic condition and the conjugations
realizing the `-1` digits of the `3e/e` recoding are sound under
unitarity. -/
theorem fp12_pow_cyclotomic_correct :
    (∀ x : FP12s, FP12s.powS x 0 = x)
    ∧ ∀ x : FP12s, unitaryRel x.val → cycRel x.val →
        ∀ e : Nat, 1 ≤ e → (FP12s.powS x e).val = x.val ^ e := by
  refine ⟨fun x => ?_, fun x hu hc e he => f12powS_val x hu hc e he⟩
  simp [FP12s.powS, f12powSteps]

/-- Witness for claim C9 at concrete inputs. -/
theorem fp12_pow_cyclotomic_correct_witness :
    FP12s.powS ⟨1, 0, 0, 4⟩ 0 = ⟨1, 0, 0, 4⟩
    ∧ unitaryRel (FP12s.val ⟨1, 0, 0, 4⟩) ∧ cycRel (FP12s.val ⟨1, 0, 0, 4⟩)
    ∧ (1 : Nat) ≤ 5
    ∧ (FP12s.powS ⟨1, 0, 0, 4⟩ 5).val = (FP12s.val ⟨1, 0, 0, 4⟩) ^ 5 :=
  ⟨fp12_pow_cyclotomic_correct.1 ⟨1, 0, 0, 4⟩,
   by decide, by decide, by decide,
   fp12_pow_cyclotomic_correct.2 ⟨1, 0, 0, 4⟩ (by decide) (by decide) 5 (by decide)⟩

/-! ## Sparsity well-formedness and the value semantics of `smul`/`ssmul`

The sparsity tag is trustworthy in exactly the states the pairing code
produces; `ssmul` is a correct multiplication whenever both operands
satisfy this invariant. -/

/-- The shape invariant tied to the `stype` tag (`ZERO`/`ONE` are the
constants, `SPARSER` is a line function `(a, (b₀,0), 0)`, `SPARSE` has
`c.b = 0`; `DENSE` promises nothing). -/
def FP12s.wf (x : FP12s) : Prop :=
  (x.stype = 0 → x.a = 0 ∧ x.b = 0 ∧ x.c = 0)
  ∧ (x.stype = 1 → x.a = 1 ∧ x.b = 0 ∧ x.c = 0)
  ∧ (x.stype = 2 → x.b.b = 0 ∧ x.c = 0)
  ∧ (x.stype = 3 → x.c.b = 0)

instance (x : FP12s) : Decidable x.wf :=
  inferInstanceAs (Decidable (_ ∧ _ ∧ _ ∧ _))

theorem f12wf_one : FP12s.oneS.wf := by decide

theorem f12wf_val_one {x : FP12s} (h : x.wf) (h1 : x.stype = 1) : x.val = 1 := by
  obtain ⟨ha, hb, hc⟩ := h.2.1 h1
  ext1 <;> simp [FP12s.val, ha, hb, hc]

theorem f12wf_conjS {x : FP12s} (h : x.wf) : (FP12s.conjS x).wf := by
  obtain ⟨h0, h1, h2, h3⟩ := h
  refine ⟨fun hs => ?_, fun hs => ?_, fun hs => ?_, fun hs => ?_⟩
  · obtain ⟨ha, hb, hc⟩ := h0 hs
    refine ⟨?_, ?_, ?_⟩ <;>
      simp [FP12s.conjS, FP4v.conjS, FP4v.nconjS, ha, hb, hc] <;> decide
  · obtain ⟨ha, hb, hc⟩ := h1 hs
    refine ⟨?_, ?_, ?_⟩ <;>
      simp [FP12s.conjS, FP4v.conjS, FP4v.nconjS, ha, hb, hc] <;> decide
  · obtain ⟨hb, hc⟩ := h2 hs
    constructor
    · simp [FP12s.conjS, FP4v.nconjS, hb]
    · simp [FP12s.conjS, FP4v.conjS, hc]
      decide
  · have hc := h3 hs
    simp [FP12s.conjS, FP4v.conjS, f2negS_eq, hc]

theorem f12wf_smulS (x y : FP12s) : (FP12s.smulS x y).wf := by
  unfold FP12s.smulS FP12s.wf
  refine ⟨fun hs => by simp at hs, fun hs => by simp at hs,
    fun hs => by simp at hs, fun _ => rfl⟩

theorem f12smulS_val (x y : FP12s)
    (hxb : x.b.b = 0) (hxc : x.c = 0) (hyb : y.b.b = 0) (hyc : y.c = 0) :
    (FP12s.smulS x y).val = x.val * y.val := by
  have hxca : x.c.a = 0 := by rw [hxc]; rfl
  have hxcb : x.c.b = 0 := by rw [hxc]; rfl
  have hyca : y.c.a = 0 := by rw [hyc]; rfl
  have hycb : y.c.b = 0 := by rw [hyc]; rfl
  ext1 <;> ext1 <;>
    simp only [FP12s.smulS, FP12s.val, f2mulS_eq, f2addS_eq, f2negS_eq,
      f2mulipS_eq, f12mul_a, f12mul_b, f12mul_c, f4mul_a, f4mul_b, f4add_a,
      f4add_b, jc, f2mul_a, f2mul_b, hxca, hxcb, hyca, hycb, hxb, hyb] <;>
    ring

theorem f12wf_sqrS {x : FP12s} (h : x.wf) : (FP12s.sqrS x).wf := by
  unfold FP12s.sqrS
  by_cases hs : x.stype = 1
  · rw [if_pos hs]; exact h
  · rw [if_neg hs]
    by_cases h2 : x.stype = 2
    · obtain ⟨hbb, hc⟩ := h.2.2.1 h2
      have hca : x.c.a = 0 := by rw [hc]; rfl
      have hcb : x.c.b = 0 := by rw [hc]; rfl
      rw [if_pos h2]
      refine ⟨fun hh => by simp at hh, fun hh => by simp at hh,
        fun hh => by simp at hh, fun _ => ?_⟩
      show (FP4v.addS _ _).b = 0
      ext <;>
        simp only [f4mulS_eq, f4sqrS_eq, f4addS_eq, f4negS_eq, f4timesiS_eq,
          f4add_a, f4add_b, f4mul_a, f4mul_b, f4neg_a, f4neg_b, jc,
          f2add_a, f2add_b, f2mul_a, f2mul_b, f2neg_a, f2neg_b,
          f2zero_a, f2zero_b, f2one_a, f2one_b, hbb, hca, hcb] <;>
        ring
    · rw [if_neg h2]
      exact ⟨fun hh => by simp at hh, fun hh => by simp at hh,
        fun hh => by simp at hh, fun hh => by simp at hh⟩

theorem f12ssmulS_val (x y : FP12s) (hx : x.wf) (hy : y.wf) :
    (FP12s.ssmulS x y).val = x.val * y.val := by
  simp only [FP12s.ssmulS]
  by_cases h1 : x.stype = 1
  · rw [if_pos h1, f12wf_val_one hx h1, one_mul]
  · rw [if_neg h1]
    by_cases h2 : y.stype = 1
    · rw [if_pos h2, f12wf_val_one hy h2, mul_one]
    · rw [if_neg h2]
      by_cases h3 : 3 ≤ y.stype
      · rw [if_pos h3]
        by_cases h4 : y.stype = 3 ∨ x.stype = 3
        · rw [if_pos h4]
          by_cases h5 : y.stype ≠ 3
          · have hx3 : x.stype = 3 := by tauto
            have hxcb : x.c.b = 0 := hx.2.2.2 hx3
            rw [if_pos h5]
            ext1 <;> ext1 <;>
              simp only [FP12s.val, f4mulS_eq, f4addS_eq, f4negS_eq,
                f4timesiS_eq, f2mulS_eq, f12mul_a, f12mul_b, f12mul_c,
                f4mul_a, f4mul_b, f4add_a, f4add_b, f4neg_a, f4neg_b, jc,
                f2mul_a, f2mul_b, f2add_a, f2add_b, f2neg_a, f2neg_b,
                f2zero_a, f2zero_b, f2one_a, f2one_b, xi2, hxcb] <;>
              ring
          · have hy3 : y.stype = 3 := by push_neg at h5; exact h5
            have hycb : y.c.b = 0 := hy.2.2.2 hy3
            rw [if_neg h5]
            by_cases h6 : x.stype ≠ 3
            · rw [if_pos h6]
              ext1 <;> ext1 <;>
                simp only [FP12s.val, f4mulS_eq, f4addS_eq, f4negS_eq,
                  f4timesiS_eq, f2mulS_eq, f12mul_a, f12mul_b, f12mul_c,
                  f4mul_a, f4mul_b, f4add_a, f4add_b, f4neg_a, f4neg_b, jc,
                  f2mul_a, f2mul_b, f2add_a, f2add_b, f2neg_a, f2neg_b,
                  f2zero_a, f2zero_b, f2one_a, f2one_b, xi2, hycb] <;>
                ring
            · have hx3 : x.stype = 3 := by push_neg at h6; exact h6
              have hxcb : x.c.b = 0 := hx.2.2.2 hx3
              rw [if_neg h6]
              ext1 <;> ext1 <;>
                simp only [FP12s.val, f4mulS_eq, f4addS_eq, f4negS_eq,
                  f4timesiS_eq, f2mulS_eq, f12mul_a, f12mul_b, f12mul_c,
                  f4mul_a, f4mul_b, f4add_a, f4add_b, f4neg_a, f4neg_b, jc,
                  f2mul_a, f2mul_b, f2add_a, f2add_b, f2neg_a, f2neg_b,
                  f2zero_a, f2zero_b, f2one_a, f2one_b, xi2, hxcb, hycb] <;>
                ring
        · rw [if_neg h4]
          ext1 <;> ext1 <;>
            simp only [FP12s.val, f4mulS_eq, f4addS_eq, f4negS_eq,
              f4timesiS_eq, f12mul_a, f12mul_b, f12mul_c, f4mul_a, f4mul_b,
              f4add_a, f4add_b, f4neg_a, f4neg_b, jc, f2mul_a, f2mul_b,
              f2add_a, f2add_b, f2neg_a, f2neg_b, f2zero_a, f2zero_b,
              f2one_a, f2one_b, xi2] <;>
            ring
      · rw [if_neg h3]
        have hyshape : y.b.b = 0 ∧ y.c = 0 := by
          by_cases hy0 : y.stype = 0
          · obtain ⟨_, hb, hc⟩ := hy.1 hy0
            exact ⟨by rw [hb]; rfl, hc⟩
          · have hy2 : y.stype = 2 := by omega
            exact hy.2.2.1 hy2
        by_cases h5 : x.stype = 2
        · rw [if_pos h5]
          exact f12smulS_val x y (hx.2.2.1 h5).1 (hx.2.2.1 h5).2
            hyshape.1 hyshape.2
        · rw [if_neg h5]
          have hybb : y.b.b = 0 := hyshape.1
          have hyca : y.c.a = 0 := by rw [hyshape.2]; rfl
          have hycb : y.c.b = 0 := by rw [hyshape.2]; rfl
          ext1 <;> ext1 <;>
            simp only [FP12s.val, f4mulS_eq, f4addS_eq, f4negS_eq,
              f4timesiS_eq, f4pmulS_eq, f2addS_eq, f12mul_a, f12mul_b,
              f12mul_c, f4mul_a, f4mul_b, f4add_a, f4add_b, f4neg_a, f4neg_b,
              jc, f2mul_a, f2mul_b, f2add_a, f2add_b, f2neg_a, f2neg_b,
              f2zero_a, f2zero_b, f2one_a, f2one_b, xi2, hybb, hyca, hycb] <;>
            ring

theorem f12wf_ssmulS {x y : FP12s} (hx : x.wf) (hy : y.wf) :
    (FP12s.ssmulS x y).wf := by
  simp only [FP12s.ssmulS]
  by_cases h1 : x.stype = 1
  · rw [if_pos h1]; exact hy
  · rw [if_neg h1]
    by_cases h2 : y.stype = 1
    · rw [if_pos h2]; exact hx
    · rw [if_neg h2]
      by_cases h3 : 3 ≤ y.stype
      · rw [if_pos h3]
        exact ⟨fun hh => by simp at hh, fun hh => by simp at hh,
          fun hh => by simp at hh, fun hh => by simp at hh⟩
      · rw [if_neg h3]
        by_cases h5 : x.stype = 2
        · rw [if_pos h5]; exact f12wf_smulS x y
        · rw [if_neg h5]
          exact ⟨fun hh => by simp at hh, fun hh => by simp at hh,
            fun hh => by simp at hh, fun hh => by simp at hh⟩

/-! ## G1 points (`ecp.js`, value level)

An `ECP` holds projective coordinates `(x, y, z)` over `FP`; the group-law
routines are the complete formulas of Renes–Costello–Batina for
`y²z = x³ + b·z³` with `b = CURVE_B_I = 2`. -/

/-- Projective G1 point (`this.x`, `this.y`, `this.z` of `ecp.js`). -/
@[ext]
structure ECPv where
  x : Fq
  y : Fq
  z : Fq
deriving DecidableEq

/-- `ECP.prototype.is_infinity`: `x` and `z` reduce to zero. -/
def ECPv.isinf (P : ECPv) : Prop := P.x = 0 ∧ P.z = 0

instance (P : ECPv) : Decidable P.isinf :=
  inferInstanceAs (Decidable (_ ∧ _))

/-- `ECP.prototype.inf` / the default `ECP` constructor: `(0, 1, 0)`. -/
def ECPv.infS : ECPv := ⟨0, 1, 0⟩

/-- `ECP.prototype.neg`: `y.neg()`. -/
def ECPv.negS (P : ECPv) : ECPv := ⟨P.x, -P.y, P.z⟩

/-- The projective curve equation `y²z = x³ + 2z³` (`ECP.RHS` with
`CURVE_B_I = 2`, homogenised). -/
def ECPv.onCurve (P : ECPv) : Prop :=
  P.y ^ 2 * P.z = P.x ^ 3 + 2 * P.z ^ 3

instance (P : ECPv) : Decidable P.onCurve :=
  inferInstanceAs (Decidable (_ = _))

/-- `ECP.prototype.equals`: cross-multiplied projective comparison. -/
def ECPv.equalsS (P Q : ECPv) : Prop :=
  P.x * Q.z = Q.x * P.z ∧ P.y * Q.z = Q.y * P.z

/-- `ECP.prototype.dbl` (`t2.imul(3·CURVE_B_I)` is multiplication by 6). -/
def ECPv.dblS (P : ECPv) : ECPv :=
  let t0 := P.y * P.y
  let t1 := P.y * P.z
  let t2 := P.z * P.z
  let z1 := t0 + t0
  let z2 := z1 + z1
  let z3 := z2 + z2
  let t2b := t2 * 6
  let x3 := t2b * z3
  let y3 := t0 + t2b
  let zf := z3 * t1
  let t2c := t2b + (t2b + t2b)
  let t0b := t0 - t2c
  let y3b := y3 * t0b + x3
  let xf := t0b * (P.x * P.y)
  ⟨xf + xf, y3b, zf⟩

/-- `ECP.prototype.add` (complete mixed formulas, `b = 3·CURVE_B_I = 6`). -/
def ECPv.addPS (P Q : ECPv) : ECPv :=
  let t0 := P.x * Q.x
  let t1 := P.y * Q.y
  let t2 := P.z * Q.z
  let t3 := (P.x + P.y) * (Q.x + Q.y) - (t0 + t1)
  let t4 := (P.y + P.z) * (Q.y + Q.z) - (t1 + t2)
  let x3 := (P.x + P.z) * (Q.x + Q.z)
  let y3 := x3 - (t0 + t2)
  let t0b := t0 + (t0 + t0)
  let t2b := t2 * 6
  let z3 := t1 + t2b
  let t1b := t1 - t2b
  let y3b := y3 * 6
  let xf := t3 * t1b - y3b * t4
  let yf := y3b * t0b + t1b * z3
  let zf := z3 * t4 + t0b * t3
  ⟨xf, yf, zf⟩

/-- `ECP.prototype.affine` (value level: `z.inverse()` is `fpInv`). -/
def ECPv.affineS (P : ECPv) : ECPv :=
  if P.isinf then P
  else if P.z = 1 then P
  else ⟨P.x * fpInv P.z, P.y * fpInv P.z, 1⟩

/-- Claim C6: the projective group-law formulas of `ecp.js` are complete:
for every `P` satisfying the (projective) curve equation, `P.add(P)` is
projectively equal (in the sense of `ECP.prototype.equals`) to `P.dbl()`,
and `P.add(P.neg())` has `x = 0` and `z = 0`, i.e. it is the point at
infinity; no branch in `add`/`dbl` distinguishes `P = Q` or `P = -Q`. -/
theorem ecp_group_law_complete (P : ECPv) (h : P.onCurve) :
    ECPv.equalsS (ECPv.addPS P P) (ECPv.dblS P)
    ∧ (ECPv.addPS P (ECPv.negS P)).isinf := by
  unfold ECPv.onCurve at h
  refine ⟨⟨?_, ?_⟩, ?_, ?_⟩
  · simp only [ECPv.addPS, ECPv.dblS]
    linear_combination (12 * P.x * P.y ^ 4 - 216 * P.x * P.y ^ 2 * P.z ^ 2) * h
  · simp only [ECPv.addPS, ECPv.dblS]
    linear_combination (6 * P.y ^ 5 - 72 * P.y ^ 3 * P.z ^ 2
      - 648 * P.y * P.z ^ 4) * h
  · simp only [ECPv.addPS, ECPv.negS]
    ring
  · simp only [ECPv.addPS, ECPv.negS]
    ring

/-- Witness for claim C6 at the ROM generator `(CURVE_Gx, CURVE_Gy) = (p-1, 1)`. -/
theorem ecp_group_law_complete_witness :
    (ECPv.onCurve ⟨pBN - 1, 1, 1⟩)
    ∧ (ECPv.equalsS (ECPv.addPS ⟨pBN - 1, 1, 1⟩ ⟨pBN - 1, 1, 1⟩)
        (ECPv.dblS ⟨pBN - 1, 1, 1⟩)
      ∧ (ECPv.addPS ⟨pBN - 1, 1, 1⟩ (ECPv.negS ⟨pBN - 1, 1, 1⟩)).isinf) :=
  ⟨by decide, ecp_group_law_complete ⟨pBN - 1, 1, 1⟩ (by decide)⟩

/-! ## G2 points (`ecp2.js`, value level) -/

/-- Projective G2 point over `FP2`. -/
@[ext]
structure ECP2v where
  x : FP2v
  y : FP2v
  z : FP2v
deriving DecidableEq

/-- `ECP2.prototype.is_infinity`. -/
def ECP2v.isinf (P : ECP2v) : Prop := P.x = 0 ∧ P.z = 0

instance (P : ECP2v) : Decidable P.isinf :=
  inferInstanceAs (Decidable (_ ∧ _))

/-- `ECP2.prototype.inf` / default constructor. -/
def ECP2v.infS : ECP2v := ⟨0, 1, 0⟩

/-- `ECP2.prototype.neg`. -/
def ECP2v.negS (P : ECP2v) : ECP2v := ⟨P.x, FP2v.negS P.y, P.z⟩

/-- `ECP2.prototype.affine`. -/
def ECP2v.affineS (P : ECP2v) : ECP2v :=
  if P.isinf then P
  else if P.z = 1 then P
  else
    let zi := FP2v.invS P.z
    ⟨FP2v.mulS P.x zi, FP2v.mulS P.y zi, 1⟩

/-- `ECP2.prototype.frob`: `x ← x̄·X²`, `y ← ȳ·X²·X`, `z ← z̄`. -/
def ECP2v.frobS (P : ECP2v) (X : FP2v) : ECP2v :=
  let X2 := FP2v.sqrS X
  ⟨FP2v.mulS (FP2v.conjS P.x) X2,
   FP2v.mulS (FP2v.mulS (FP2v.conjS P.y) X2) X,
   FP2v.conjS P.z⟩

/-- `ECP2.prototype.dbl`. -/
def ECP2v.dblS (P : ECP2v) : ECP2v :=
  let iy := FP2v.mulipS P.y
  let t0 := FP2v.mulipS (FP2v.sqrS P.y)
  let t1 := FP2v.mulS iy P.z
  let t2 := FP2v.sqrS P.z
  let z2 := FP2v.addS t0 t0
  let z4 := FP2v.addS z2 z2
  let z8 := FP2v.addS z4 z4
  let t2b := FP2v.imulS t2 6
  let x3 := FP2v.mulS t2b z8
  let y3 := FP2v.addS t0 t2b
  let zf := FP2v.mulS z8 t1
  let t2c := FP2v.addS t2b (FP2v.addS t2b t2b)
  let t0b := FP2v.subS t0 t2c
  let y3b := FP2v.addS (FP2v.mulS y3 t0b) x3
  let xf := FP2v.mulS t0b (FP2v.mulS P.x iy)
  ⟨FP2v.addS xf xf, y3b, zf⟩

/-- `ECP2.prototype.add` (`b = 3·CURVE_B_I = 6`). -/
def ECP2v.addPS (P Q : ECP2v) : ECP2v :=
  let t0 := FP2v.mulS P.x Q.x
  let t1 := FP2v.mulS P.y Q.y
  let t2 := FP2v.mulS P.z Q.z
  let t3 := FP2v.mulipS (FP2v.subS
    (FP2v.mulS (FP2v.addS P.x P.y) (FP2v.addS Q.x Q.y)) (FP2v.addS t0 t1))
  let t4 := FP2v.mulipS (FP2v.subS
    (FP2v.mulS (FP2v.addS P.y P.z) (FP2v.addS Q.y Q.z)) (FP2v.addS t1 t2))
  let y3 := FP2v.rsubS (FP2v.addS t0 t2)
    (FP2v.mulS (FP2v.addS P.x P.z) (FP2v.addS Q.x Q.z))
  let t0b := FP2v.mulipS t0
  let t1b := FP2v.mulipS t1
  let t0c := FP2v.addS t0b (FP2v.addS t0b t0b)
  let t2b := FP2v.imulS t2 6
  let z3 := FP2v.addS t1b t2b
  let t1c := FP2v.subS t1b t2b
  let y3c := FP2v.imulS y3 6
  let xf := FP2v.rsubS (FP2v.mulS y3c t4) (FP2v.mulS t3 t1c)
  let yf := FP2v.addS (FP2v.mulS y3c t0c) (FP2v.mulS t1c z3)
  let zf := FP2v.addS (FP2v.mulS z3 t4) (FP2v.mulS t0c t3)
  ⟨xf, yf, zf⟩

/-! ## The pairing (`pair.js`, value level)

`Modelled from the spec:` `rom_field.js` is absent from `src/`; `Fra`/`Frb`
are the halves of the Frobenius constant `f = (1+i)^((p-1)/6) ∈ F_{p²}`
used by `frob` (spec §4: Frobenius endomorphism constant of the sextic
twist for BN254). -/

/-- `ROM_FIELD.Fra` (value). -/
def FraC : Fq := 0x1B377619212E7C8CB6499B50A846953F850974924D3F77C2E17DE6C06F2A6DE9

/-- `ROM_FIELD.Frb` (value). -/
def FrbC : Fq := 0x9EBEE691ED1837503EAB22F57B96AC8DC178B6DB2C08850C582193F90D5922A

/-- `f = FP2(fa, fb)` built by `ate`/`another`/`fexp`. -/
def fFr : FP2v := ⟨FraC, FrbC⟩

/-- `PAIR.line(A, B, Qx, Qy)` with `A === B` (the doubling branch), paired
with the mutated `A` (`A.dbl()`).  The returned `FP12` is
`set(FP4(YZ, ZZ), FP4(XX), 0)` with `settype(FP.SPARSER)`. -/
def lineDblS (A : ECP2v) (Qx Qy : Fq) : ECP2v × FP12s :=
  let YZ := FP2v.mulS A.y A.z
  let XX := FP2v.sqrS A.x
  let YY := FP2v.sqrS A.y
  let ZZ := FP2v.sqrS A.z
  let YZ2 := FP2v.pmulS (FP2v.negS (FP2v.imulS YZ 4)) Qy
  let XX2 := FP2v.pmulS (FP2v.imulS XX 6) Qx
  let ZZ2 := FP2v.divip2S (FP2v.imulS ZZ 6)
  let ZZ3 := FP2v.subS ZZ2 (FP2v.addS YY YY)
  (ECP2v.dblS A, ⟨⟨YZ2, ZZ3⟩, ⟨XX2, 0⟩, 0, 2⟩)

/-- `PAIR.line(A, B, Qx, Qy)` with `A ≠ B` (the addition branch), paired
with the mutated `A` (`A.add(B)`). -/
def lineAddS (A B : ECP2v) (Qx Qy : Fq) : ECP2v × FP12s :=
  let X1 := FP2v.subS A.x (FP2v.mulS A.z B.x)
  let Y1 := FP2v.subS A.y (FP2v.mulS A.z B.y)
  let X1p := FP2v.pmulS X1 Qy
  let T1 := FP2v.mulS X1 B.y
  let T2 := FP2v.subS (FP2v.mulS Y1 B.x) T1
  let Y1n := FP2v.negS (FP2v.pmulS Y1 Qx)
  (ECP2v.addPS A B, ⟨⟨X1p, T2⟩, ⟨Y1n, 0⟩, 0, 2⟩)

/-- `PAIR.lbits`: `n = 6·CURVE_Bnx` then `n.dec(2)` (the BN parameter `u`
is negative, `u = -CURVE_Bnx`, so `|6u + 2| = 6·CURVE_Bnx - 2`). -/
def lbitsN : Nat := 6 * bnx - 2

/-- `n3 = 3·n` of `PAIR.lbits`. -/
def lbitsN3 : Nat := 3 * lbitsN

/-- The return value of `PAIR.lbits`: `n3.nbits()`. -/
def lbitsNb : Nat := Nat.size lbitsN3

/-- The shared loop body of `ate`/`ate2`/`another` at bit `i`:
`lv = line(A,A,…)`, then on `bt = n3.bit(i) - n.bit(i) = ±1` a second line
through `P` (resp. `NP`) is folded in with `smul`. -/
def pairStep (Qx Qy : Fq) (P NP : ECP2v) (n3 n : Nat) (A : ECP2v) (i : Nat) :
    ECP2v × FP12s :=
  let d := lineDblS A Qx Qy
  if n3 / 2 ^ i % 2 = 1 ∧ n / 2 ^ i % 2 = 0 then
    let a2 := lineAddS d.1 P Qx Qy
    (a2.1, FP12s.smulS d.2 a2.2)
  else if n3 / 2 ^ i % 2 = 0 ∧ n / 2 ^ i % 2 = 1 then
    let a2 := lineAddS d.1 NP Qx Qy
    (a2.1, FP12s.smulS d.2 a2.2)
  else (d.1, d.2)

/-- The accumulator loop of `PAIR.ate` after `s` iterations (iteration `s`
handles bit `i = nb - 2 - s`): `r.sqr(); …; r.ssmul(lv)`. -/
def ateSteps (Qx Qy : Fq) (P NP : ECP2v) (n3 n nb : Nat) :
    Nat → ECP2v × FP12s
  | 0 => (P, FP12s.oneS)
  | s + 1 =>
    let st := ateSteps Qx Qy P NP n3 n nb s
    let st2 := pairStep Qx Qy P NP n3 n st.1 (nb - 2 - s)
    (st2.1, FP12s.ssmulS (FP12s.sqrS st.2) st2.2)

/-- The loop of `PAIR.another` after `s` iterations: the same `A`-evolution,
but each `lv` is folded into the per-bit accumulator `r[i]` instead. -/
def anoSteps (Qx Qy : Fq) (P NP : ECP2v) (n3 n nb : Nat) (r : Nat → FP12s) :
    Nat → ECP2v × (Nat → FP12s)
  | 0 => (P, r)
  | s + 1 =>
    let st := anoSteps Qx Qy P NP n3 n nb r s
    let st2 := pairStep Qx Qy P NP n3 n st.1 (nb - 2 - s)
    (st2.1, fun j => if j = nb - 2 - s then FP12s.ssmulS (st.2 j) st2.2
      else st.2 j)

/-- The R-ate fixup of `ate`/`ate2`/`another` (pair.js 211–221, 278–291):
`A.neg(); K = P.frob(f); lv = line(A,K,…); K.frob(f); K.neg();
lv2 = line(A,K,…); lv.smul(lv2)`. -/
def pairFixup (Qx Qy : Fq) (P A : ECP2v) : FP12s :=
  let A1 := ECP2v.negS A
  let K := ECP2v.frobS P fFr
  let l1 := lineAddS A1 K Qx Qy
  let K2 := ECP2v.negS (ECP2v.frobS K fFr)
  let l2 := lineAddS l1.1 K2 Qx Qy
  FP12s.smulS l1.2 l2.2

/-- `PAIR.ate(P1, Q1)`. -/
def ateS (P1 : ECP2v) (Q1 : ECPv) : FP12s :=
  let P := ECP2v.affineS P1
  let Q := ECPv.affineS Q1
  let NP := ECP2v.negS P
  let st := ateSteps Q.x Q.y P NP lbitsN3 lbitsN lbitsNb (lbitsNb - 2)
  FP12s.ssmulS (FP12s.conjS st.2) (pairFixup Q.x Q.y P st.1)

/-- `PAIR.initmp()`: `ATE_BITS` accumulators all set to `FP12(1)`. -/
def initmpS : Nat → FP12s := fun _ => FP12s.oneS

/-- `PAIR.another(r, P1, Q1)`: the returned array state. -/
def anotherS (r : Nat → FP12s) (P1 : ECP2v) (Q1 : ECPv) : Nat → FP12s :=
  let P := ECP2v.affineS P1
  let Q := ECPv.affineS Q1
  let NP := ECP2v.negS P
  let st := anoSteps Q.x Q.y P NP lbitsN3 lbitsN lbitsNb r (lbitsNb - 2)
  fun j => if j = 0 then FP12s.ssmulS (st.2 0) (pairFixup Q.x Q.y P st.1)
    else st.2 j

/-- `ECP.ATE_BITS` (part_004, line 82). -/
def ATE_BITS : Nat := 66

/-- The loop of `PAIR.miller` after `s` iterations (iteration `s` handles
index `i = ATE_BITS - 1 - s`): `res.sqr(); res.ssmul(r[i])`. -/
def millerSteps (r : Nat → FP12s) : Nat → FP12s
  | 0 => FP12s.oneS
  | s + 1 =>
    FP12s.ssmulS (FP12s.sqrS (millerSteps r s)) (r (ATE_BITS - 1 - s))

/-- `PAIR.miller(r)`: the loop down to index 1, then `res.conj()` and
`res.ssmul(r[0])`. -/
def millerS (r : Nat → FP12s) : FP12s :=
  FP12s.ssmulS (FP12s.conjS (millerSteps r (ATE_BITS - 1))) (r 0)

/-! ## Claim C3: the Miller loop parameter -/

/-- `nbits(3·(6·CURVE_Bnx - 2)) = 67` (so the loops run `i = 65 … 1`). -/
theorem lbitsNb_67 : lbitsNb = 67 := by
  unfold lbitsNb
  refine le_antisymm (Nat.size_le.mpr ?_) (Nat.lt_size.mpr ?_) <;>
    norm_num [lbitsN3, lbitsN, bnx]

/-- Claim C3, counterexample to the stated property: `PAIR.lbits` performs
`n.pmul(6); n.dec(2)`, so `n = 6·CURVE_Bnx - 2`, not `6·CURVE_Bnx + 2`. -/
theorem lbits_not_six_bnx_plus_two : lbitsN ≠ 6 * bnx + 2 := by decide

/-- Claim C3 (corrected): `PAIR.lbits` computes `n = 6·CURVE_Bnx - 2`
(equal to `|6u + 2|` for the signed BN parameter `u = -CURVE_Bnx`),
`n3 = 3·n`, and returns `nbits(n3) = 67`; `ECP.ATE_BITS = 66 = nbits(n3) - 1`,
and the per-bit selector `bt = n3.bit(i) - n.bit(i)` always lies in
`{-1, 0, 1}`. -/
theorem lbits_parameterization :
    lbitsN = 6 * bnx - 2
    ∧ (lbitsN : Int) = -(6 * (-(bnx : Int)) + 2)
    ∧ lbitsN3 = 3 * lbitsN
    ∧ lbitsNb = 67
    ∧ ATE_BITS = lbitsNb - 1
    ∧ ∀ i : Nat,
        (lbitsN3 / 2 ^ i % 2 : Int) - (lbitsN / 2 ^ i % 2 : Int) = -1
        ∨ (lbitsN3 / 2 ^ i % 2 : Int) - (lbitsN / 2 ^ i % 2 : Int) = 0
        ∨ (lbitsN3 / 2 ^ i % 2 : Int) - (lbitsN / 2 ^ i % 2 : Int) = 1 := by
  refine ⟨rfl, by decide, rfl, lbitsNb_67, by rw [lbitsNb_67]; rfl, ?_⟩
  intro i
  have h3 : lbitsN3 / 2 ^ i % 2 < 2 := Nat.mod_lt _ (by omega)
  have h1 : lbitsN / 2 ^ i % 2 < 2 := Nat.mod_lt _ (by omega)
  omega

/-! ## Claim C2: `initmp`/`another`/`miller` versus `ate` -/

theorem lineDblS_wf (A : ECP2v) (Qx Qy : Fq) : ((lineDblS A Qx Qy).2).wf := by
  exact ⟨fun h => by simp [lineDblS] at h, fun h => by simp [lineDblS] at h,
    fun _ => ⟨rfl, rfl⟩, fun h => by simp [lineDblS] at h⟩

theorem lineAddS_wf (A B : ECP2v) (Qx Qy : Fq) : ((lineAddS A B Qx Qy).2).wf := by
  exact ⟨fun h => by simp [lineAddS] at h, fun h => by simp [lineAddS] at h,
    fun _ => ⟨rfl, rfl⟩, fun h => by simp [lineAddS] at h⟩

theorem pairStep_wf (Qx Qy : Fq) (P NP A : ECP2v) (n3 n i : Nat) :
    ((pairStep Qx Qy P NP n3 n A i).2).wf := by
  unfold pairStep
  split_ifs <;> first
    | exact f12wf_smulS _ _
    | exact lineDblS_wf _ _ _

theorem pairFixup_wf (Qx Qy : Fq) (P A : ECP2v) :
    (pairFixup Qx Qy P A).wf := f12wf_smulS _ _

/-- `x.ssmul(y)` with `x.stype = FP.ONE` is `copy(y)`. -/
theorem f12ssmulS_oneS (y : FP12s) : FP12s.ssmulS FP12s.oneS y = y := rfl

theorem f12val_oneS : FP12s.oneS.val = 1 := rfl

/-- The value recurrence realized by the `miller` loop. -/
def valMilSteps (v : Nat → FP12c) : Nat → FP12c
  | 0 => 1
  | s + 1 => valMilSteps v s * valMilSteps v s * v (ATE_BITS - 1 - s)

theorem valMilSteps_mul (v u : Nat → FP12c) (s : Nat) :
    valMilSteps (fun j => v j * u j) s = valMilSteps v s * valMilSteps u s := by
  induction s with
  | zero => simp [valMilSteps]
  | succ n ih => simp only [valMilSteps, ih]; ring

theorem valMilSteps_const_one (s : Nat) : valMilSteps (fun _ => 1) s = 1 := by
  induction s with
  | zero => rfl
  | succ n ih => simp [valMilSteps, ih]

theorem millerSteps_wf_val (r : Nat → FP12s) (hr : ∀ j, (r j).wf) (s : Nat) :
    (millerSteps r s).wf
    ∧ (millerSteps r s).val = valMilSteps (fun j => (r j).val) s := by
  induction s with
  | zero => exact ⟨f12wf_one, rfl⟩
  | succ n ih =>
    refine ⟨f12wf_ssmulS (f12wf_sqrS ih.1) (hr _), ?_⟩
    show (FP12s.ssmulS (FP12s.sqrS (millerSteps r n)) (r (ATE_BITS - 1 - n))).val
      = _
    rw [f12ssmulS_val _ _ (f12wf_sqrS ih.1) (hr _),
      f12sqrS_val _ (f12wf_val_one ih.1), ih.2]
    rfl

theorem millerS_val (r : Nat → FP12s) (hr : ∀ j, (r j).wf) :
    (millerS r).val
      = FP12c.conj (valMilSteps (fun j => (r j).val) (ATE_BITS - 1))
        * (r 0).val := by
  obtain ⟨hwf, hval⟩ := millerSteps_wf_val r hr (ATE_BITS - 1)
  unfold millerS
  rw [f12ssmulS_val _ _ (f12wf_conjS hwf) (hr 0), f12conjS_val, hval]

theorem millerS_initmp : (millerS initmpS).val = 1 := by
  rw [millerS_val initmpS (fun _ => f12wf_one)]
  show FP12c.conj (valMilSteps (fun _ => FP12s.oneS.val) _) * FP12s.oneS.val = 1
  rw [f12val_oneS]
  rw [valMilSteps_const_one, f12conj_one, one_mul]

/-- The line value produced by the shared loop body at iteration `s`
(the `A`-evolution is the same in `ate` and `another`). -/
def lvAt (Qx Qy : Fq) (P NP : ECP2v) (n3 n nb s : Nat) : FP12s :=
  (pairStep Qx Qy P NP n3 n (ateSteps Qx Qy P NP n3 n nb s).1 (nb - 2 - s)).2

theorem anoSteps_fst (Qx Qy : Fq) (P NP : ECP2v) (n3 n nb : Nat)
    (r : Nat → FP12s) (s : Nat) :
    (anoSteps Qx Qy P NP n3 n nb r s).1 = (ateSteps Qx Qy P NP n3 n nb s).1 := by
  induction s with
  | zero => rfl
  | succ n' ih => simp only [anoSteps, ateSteps, ih]

theorem anoSteps_entry (Qx Qy : Fq) (P NP : ECP2v) (n3 n nb : Nat)
    (r : Nat → FP12s) (hnb : 2 ≤ nb) :
    ∀ s, s ≤ nb - 2 → ∀ j,
      (anoSteps Qx Qy P NP n3 n nb r s).2 j
        = if nb - 1 - s ≤ j ∧ j ≤ nb - 2 then
            FP12s.ssmulS (r j) (lvAt Qx Qy P NP n3 n nb (nb - 2 - j))
          else r j := by
  intro s
  induction s with
  | zero =>
    intro _ j
    rw [if_neg (by omega)]
    rfl
  | succ s ih =>
    intro hs1 j
    have hlv : (pairStep Qx Qy P NP n3 n
        (anoSteps Qx Qy P NP n3 n nb r s).1 (nb - 2 - s)).2
        = lvAt Qx Qy P NP n3 n nb s := by
      rw [anoSteps_fst]
      rfl
    show (if j = nb - 2 - s then
        FP12s.ssmulS ((anoSteps Qx Qy P NP n3 n nb r s).2 j)
          (pairStep Qx Qy P NP n3 n
            (anoSteps Qx Qy P NP n3 n nb r s).1 (nb - 2 - s)).2
      else (anoSteps Qx Qy P NP n3 n nb r s).2 j) = _
    by_cases hj : j = nb - 2 - s
    · rw [if_pos hj, hlv, ih (by omega) j, if_neg (by omega)]
      have hjj : nb - 2 - j = s := by omega
      rw [if_pos (by omega), hjj]
    · rw [if_neg hj, ih (by omega) j]
      by_cases hcond : nb - 1 - s ≤ j ∧ j ≤ nb - 2
      · rw [if_pos hcond, if_pos (by omega)]
      · rw [if_neg hcond, if_neg (by omega)]

theorem anoSteps_wf (Qx Qy : Fq) (P NP : ECP2v) (n3 n nb : Nat)
    (r : Nat → FP12s) (hr : ∀ j, (r j).wf) (s : Nat) :
    ∀ j, ((anoSteps Qx Qy P NP n3 n nb r s).2 j).wf := by
  induction s with
  | zero => exact hr
  | succ s ih =>
    intro j
    show (if j = nb - 2 - s then FP12s.ssmulS _ _ else _).wf
    by_cases hj : j = nb - 2 - s
    · rw [if_pos hj]
      exact f12wf_ssmulS (ih j) (pairStep_wf _ _ _ _ _ _ _ _)
    · rw [if_neg hj]
      exact ih j

theorem anotherS_wf (r : Nat → FP12s) (hr : ∀ j, (r j).wf) (P1 : ECP2v)
    (Q1 : ECPv) : ∀ j, ((anotherS r P1 Q1) j).wf := by
  intro j
  show (if j = 0 then FP12s.ssmulS _ _ else _).wf
  by_cases hj : j = 0
  · rw [if_pos hj]
    exact f12wf_ssmulS (anoSteps_wf _ _ _ _ _ _ _ _ hr _ 0)
      (pairFixup_wf _ _ _ _)
  · rw [if_neg hj]
    exact anoSteps_wf _ _ _ _ _ _ _ _ hr _ j

theorem anotherS_split (r : Nat → FP12s) (P1 : ECP2v) (Q1 : ECPv) (j : Nat) :
    anotherS r P1 Q1 j = FP12s.ssmulS (r j) (anotherS initmpS P1 Q1 j)
    ∨ (anotherS r P1 Q1 j = r j
        ∧ anotherS initmpS P1 Q1 j = FP12s.oneS) := by
  have hnb : (2 : Nat) ≤ lbitsNb := by rw [lbitsNb_67]; omega
  have hent := anoSteps_entry (ECPv.affineS Q1).x (ECPv.affineS Q1).y
    (ECP2v.affineS P1) (ECP2v.negS (ECP2v.affineS P1)) lbitsN3 lbitsN lbitsNb
    r hnb (lbitsNb - 2) (le_refl _)
  have hentI := anoSteps_entry (ECPv.affineS Q1).x (ECPv.affineS Q1).y
    (ECP2v.affineS P1) (ECP2v.negS (ECP2v.affineS P1)) lbitsN3 lbitsN lbitsNb
    initmpS hnb (lbitsNb - 2) (le_refl _)
  have hfst := anoSteps_fst (ECPv.affineS Q1).x (ECPv.affineS Q1).y
    (ECP2v.affineS P1) (ECP2v.negS (ECP2v.affineS P1)) lbitsN3 lbitsN lbitsNb
    r (lbitsNb - 2)
  have hfstI := anoSteps_fst (ECPv.affineS Q1).x (ECPv.affineS Q1).y
    (ECP2v.affineS P1) (ECP2v.negS (ECP2v.affineS P1)) lbitsN3 lbitsN lbitsNb
    initmpS (lbitsNb - 2)
  show (if j = 0 then FP12s.ssmulS _ _ else _) = FP12s.ssmulS (r j)
      (if j = 0 then FP12s.ssmulS _ _ else _)
    ∨ ((if j = 0 then FP12s.ssmulS _ _ else _) = r j
        ∧ (if j = 0 then FP12s.ssmulS _ _ else _) = FP12s.oneS)
  rw [lbitsNb_67] at hent hentI hfst hfstI hnb ⊢
  by_cases hj : j = 0
  · left
    subst hj
    rw [if_pos rfl, if_pos rfl, hent 0, hentI 0, if_neg (by omega),
      if_neg (by omega), hfst, hfstI]
    simp only [initmpS]
    rw [f12ssmulS_oneS]
  · rw [if_neg hj, if_neg hj, hent j, hentI j]
    by_cases hcond : 67 - 1 - (67 - 2) ≤ j ∧ j ≤ 67 - 2
    · left
      rw [if_pos hcond, if_pos hcond]
      simp only [initmpS]
      rw [f12ssmulS_oneS]
    · right
      rw [if_neg hcond, if_neg hcond]
      exact ⟨rfl, rfl⟩

theorem anotherK_mid (P1 : ECP2v) (Q1 : ECPv) (j : Nat) (hj : 1 ≤ j ∧ j ≤ 65) :
    anotherS initmpS P1 Q1 j
      = lvAt (ECPv.affineS Q1).x (ECPv.affineS Q1).y (ECP2v.affineS P1)
          (ECP2v.negS (ECP2v.affineS P1)) lbitsN3 lbitsN lbitsNb (65 - j) := by
  have hnb : (2 : Nat) ≤ lbitsNb := by rw [lbitsNb_67]; omega
  have hentI := anoSteps_entry (ECPv.affineS Q1).x (ECPv.affineS Q1).y
    (ECP2v.affineS P1) (ECP2v.negS (ECP2v.affineS P1)) lbitsN3 lbitsN lbitsNb
    initmpS hnb (lbitsNb - 2) (le_refl _)
  show (if j = 0 then FP12s.ssmulS _ _ else _) = _
  rw [lbitsNb_67] at hentI ⊢
  rw [if_neg (by omega), hentI j, if_pos (by omega)]
  simp only [initmpS]
  rw [f12ssmulS_oneS]

theorem anotherK_zero (P1 : ECP2v) (Q1 : ECPv) :
    anotherS initmpS P1 Q1 0
      = pairFixup (ECPv.affineS Q1).x (ECPv.affineS Q1).y (ECP2v.affineS P1)
          (ateSteps (ECPv.affineS Q1).x (ECPv.affineS Q1).y (ECP2v.affineS P1)
            (ECP2v.negS (ECP2v.affineS P1)) lbitsN3 lbitsN lbitsNb
            (lbitsNb - 2)).1 := by
  have hnb : (2 : Nat) ≤ lbitsNb := by rw [lbitsNb_67]; omega
  have hentI := anoSteps_entry (ECPv.affineS Q1).x (ECPv.affineS Q1).y
    (ECP2v.affineS P1) (ECP2v.negS (ECP2v.affineS P1)) lbitsN3 lbitsN lbitsNb
    initmpS hnb (lbitsNb - 2) (le_refl _)
  have hfstI := anoSteps_fst (ECPv.affineS Q1).x (ECPv.affineS Q1).y
    (ECP2v.affineS P1) (ECP2v.negS (ECP2v.affineS P1)) lbitsN3 lbitsN lbitsNb
    initmpS (lbitsNb - 2)
  simp only [anotherS]
  rw [lbitsNb_67] at hentI hfstI ⊢
  rw [if_pos trivial, hentI 0, if_neg (by omega), hfstI]
  simp only [initmpS]
  rw [f12ssmulS_oneS]

theorem anotherK_high (P1 : ECP2v) (Q1 : ECPv) (j : Nat) (hj : 66 ≤ j) :
    anotherS initmpS P1 Q1 j = FP12s.oneS := by
  have hnb : (2 : Nat) ≤ lbitsNb := by rw [lbitsNb_67]; omega
  have hentI := anoSteps_entry (ECPv.affineS Q1).x (ECPv.affineS Q1).y
    (ECP2v.affineS P1) (ECP2v.negS (ECP2v.affineS P1)) lbitsN3 lbitsN lbitsNb
    initmpS hnb (lbitsNb - 2) (le_refl _)
  show (if j = 0 then FP12s.ssmulS _ _ else _) = _
  rw [lbitsNb_67] at hentI ⊢
  rw [if_neg (by omega), hentI j, if_neg (by omega)]
  rfl

theorem ateSteps_wf_val (P1 : ECP2v) (Q1 : ECPv) :
    ∀ s, s ≤ 65 →
      ((ateSteps (ECPv.affineS Q1).x (ECPv.affineS Q1).y (ECP2v.affineS P1)
          (ECP2v.negS (ECP2v.affineS P1)) lbitsN3 lbitsN lbitsNb s).2).wf
      ∧ ((ateSteps (ECPv.affineS Q1).x (ECPv.affineS Q1).y (ECP2v.affineS P1)
          (ECP2v.negS (ECP2v.affineS P1)) lbitsN3 lbitsN lbitsNb s).2).val
        = valMilSteps (fun j => ((anotherS initmpS P1 Q1) j).val) s := by
  intro s
  induction s with
  | zero => intro _; exact ⟨f12wf_one, rfl⟩
  | succ s ih =>
    intro hs
    obtain ⟨hwf, hval⟩ := ih (by omega)
    constructor
    · exact f12wf_ssmulS (f12wf_sqrS hwf) (pairStep_wf _ _ _ _ _ _ _ _)
    · show (FP12s.ssmulS (FP12s.sqrS _) _).val = _
      rw [f12ssmulS_val _ _ (f12wf_sqrS hwf) (pairStep_wf _ _ _ _ _ _ _ _),
        f12sqrS_val _ (f12wf_val_one hwf), hval]
      show _ = valMilSteps (fun j => ((anotherS initmpS P1 Q1) j).val) s
        * valMilSteps (fun j => ((anotherS initmpS P1 Q1) j).val) s
        * ((anotherS initmpS P1 Q1) (ATE_BITS - 1 - s)).val
      have hAB : ATE_BITS - 1 - s = 65 - s := rfl
      rw [hAB, anotherK_mid P1 Q1 (65 - s) (by omega)]
      have hidx : 65 - (65 - s) = s := by omega
      rw [hidx]
      rfl

theorem ate_matches_single (P1 : ECP2v) (Q1 : ECPv) :
    (millerS (anotherS initmpS P1 Q1)).val = (ateS P1 Q1).val := by
  have hK := anotherS_wf initmpS (fun _ => f12wf_one) P1 Q1
  obtain ⟨hwf65, hval65⟩ := ateSteps_wf_val P1 Q1 65 (le_refl _)
  rw [millerS_val _ hK]
  show _ = (FP12s.ssmulS (FP12s.conjS (ateSteps (ECPv.affineS Q1).x
      (ECPv.affineS Q1).y (ECP2v.affineS P1)
      (ECP2v.negS (ECP2v.affineS P1)) lbitsN3 lbitsN lbitsNb
      (lbitsNb - 2)).2)
    (pairFixup (ECPv.affineS Q1).x (ECPv.affineS Q1).y (ECP2v.affineS P1)
      (ateSteps (ECPv.affineS Q1).x (ECPv.affineS Q1).y (ECP2v.affineS P1)
        (ECP2v.negS (ECP2v.affineS P1)) lbitsN3 lbitsN lbitsNb
        (lbitsNb - 2)).1)).val
  have h65 : lbitsNb - 2 = 65 := by rw [lbitsNb_67]
  rw [h65, f12ssmulS_val _ _ (f12wf_conjS hwf65) (pairFixup_wf _ _ _ _),
    f12conjS_val, hval65, anotherK_zero P1 Q1, h65]
  rfl

theorem anotherS_val_pointwise (r : Nat → FP12s) (hr : ∀ j, (r j).wf)
    (P1 : ECP2v) (Q1 : ECPv) (j : Nat) :
    ((anotherS r P1 Q1) j).val
      = (r j).val * ((anotherS initmpS P1 Q1) j).val := by
  rcases anotherS_split r P1 Q1 j with h | ⟨h1, h2⟩
  · rw [h, f12ssmulS_val _ _ (hr j)
      (anotherS_wf initmpS (fun _ => f12wf_one) P1 Q1 j)]
  · rw [h1, h2, f12val_oneS, mul_one]

theorem millerS_another_val (r : Nat → FP12s) (hr : ∀ j, (r j).wf)
    (P1 : ECP2v) (Q1 : ECPv) :
    (millerS (anotherS r P1 Q1)).val
      = (millerS r).val * (millerS (anotherS initmpS P1 Q1)).val := by
  have hK := anotherS_wf initmpS (fun _ => f12wf_one) P1 Q1
  have hA := anotherS_wf r hr P1 Q1
  rw [millerS_val _ hA, millerS_val _ hr, millerS_val _ hK]
  have hpt : (fun j => ((anotherS r P1 Q1) j).val)
      = fun j => (r j).val * ((anotherS initmpS P1 Q1) j).val :=
    funext (anotherS_val_pointwise r hr P1 Q1)
  rw [hpt, valMilSteps_mul, f12conj_mul, anotherS_val_pointwise r hr P1 Q1 0]
  ring

/-- Claim C2: for all inputs, the multi-pairing interface agrees with
`ate`: a single `another` on a fresh `initmp` array followed by `miller`
yields an `FP12` with the same field value as `PAIR.ate(P, Q)` (this is
what `FP12.equals` compares); and after `another` is called for any list
of pairs, `miller` returns the product of the individual `ate` results. -/
theorem miller_another_matches_ate :
    (∀ (P1 : ECP2v) (Q1 : ECPv),
      (millerS (anotherS initmpS P1 Q1)).val = (ateS P1 Q1).val)
    ∧ ∀ ps : List (ECP2v × ECPv),
      (millerS (ps.foldl (fun r pq => anotherS r pq.1 pq.2) initmpS)).val
        = (ps.map (fun pq => (ateS pq.1 pq.2).val)).prod := by
  constructor
  · exact ate_matches_single
  · have key : ∀ (ps : List (ECP2v × ECPv)) (r : Nat → FP12s),
        (∀ j, (r j).wf) →
        (millerS (ps.foldl (fun r pq => anotherS r pq.1 pq.2) r)).val
          = (millerS r).val
            * (ps.map (fun pq => (ateS pq.1 pq.2).val)).prod := by
      intro ps
      induction ps with
      | nil => intro r hr; simp
      | cons pq ps ih =>
        intro r hr
        simp only [List.foldl_cons, List.map_cons, List.prod_cons]
        rw [ih (anotherS r pq.1 pq.2) (anotherS_wf r hr pq.1 pq.2),
          millerS_another_val r hr pq.1 pq.2,
          ate_matches_single pq.1 pq.2]
        ring
    intro ps
    rw [key ps initmpS (fun _ => f12wf_one), millerS_initmp, one_mul]

/-! ## Byte serialization (`big.js` `toBytes`/`fromBytes`, value level)

`BIG.toBytes` emits 32 big-endian bytes of the normalised value;
`BIG.fromBytes` folds them back with `m.fshl(8); m.w[0] += b[i] & 0xff`. -/

/-- `BIG.prototype.toBytes` (32 big-endian bytes). -/
def toBytes32 (v : Nat) : List Nat :=
  (List.range 32).map (fun i => v / 256 ^ (31 - i) % 256)

/-- `BIG.fromBytes` (fold big-endian bytes, each masked with `0xff`). -/
def fromBytes32 (bs : List Nat) : Nat :=
  bs.foldl (fun acc b => 256 * acc + b % 256) 0

theorem toBytes32_length (v : Nat) : (toBytes32 v).length = 32 := by
  simp [toBytes32]

theorem fromBytes32_toBytes32 (v : Nat) (hv : v < 2 ^ 256) :
    fromBytes32 (toBytes32 v) = v := by
  have key : ∀ k, k ≤ 32 →
      ((List.range k).map (fun i => v / 256 ^ (31 - i) % 256)).foldl
        (fun acc b => 256 * acc + b % 256) 0 = v / 256 ^ (32 - k) := by
    intro k
    induction k with
    | zero =>
      intro _
      have h256 : (2 : Nat) ^ 256 = 256 ^ 32 := by norm_num [pow_mul]
      simp only [List.range_zero, List.map_nil, List.foldl_nil]
      rw [Nat.div_eq_of_lt (by omega)]
    | succ k ih =>
      intro hk
      rw [List.range_succ, List.map_append, List.foldl_append, ih (by omega)]
      simp only [List.map_cons, List.map_nil, List.foldl_cons, List.foldl_nil]
      have h31 : 32 - (k + 1) = 31 - k := by omega
      rw [h31]
      have hdd : v / 256 ^ (32 - k) = v / 256 ^ (31 - k) / 256 := by
        rw [show (32 : Nat) - k = (31 - k) + 1 by omega, pow_succ,
          Nat.div_div_eq_div_mul]
      rw [hdd]
      have hm := Nat.div_add_mod (v / 256 ^ (31 - k)) 256
      omega
  have h32 := key 32 (le_refl _)
  unfold fromBytes32 toBytes32
  rw [h32]
  simp

/-! ## ECP serialization (`ecp.js` / `ecp2.js`, value level) -/

/-- `ECP.RHS`: `x³ + CURVE_B_I` (`B_I = 2`). -/
def ECPv.rhs (x : Fq) : Fq := x * x * x + 2

/-- `ECP.prototype.setxy` (`bcopy` is reduction mod `p`; the curve check
`y² = RHS(x)` falls back to `inf()`). -/
def ECPv.setxy (ix iy : Nat) : ECPv :=
  let x : Fq := (ix : Fq)
  let y : Fq := (iy : Fq)
  if y * y = ECPv.rhs x then ⟨x, y, 1⟩ else ECPv.infS

/-- `ECP.prototype.setxi`: recover `y` as `sqrt(RHS(x))` when the Jacobi
symbol is `1`, fix the sign by the parity tag, else `inf()`. -/
def ECPv.setxi (ix s : Nat) : ECPv :=
  let x : Fq := (ix : Fq)
  let rhs := ECPv.rhs x
  if fpJacobi rhs = 1 then
    let ny := fpSqrtv rhs
    ⟨x, if ny.val % 2 ≠ s then -ny else ny, 1⟩
  else ECPv.infS

/-- `ECP.prototype.toBytes`: affine, then `0x04 ‖ x ‖ y` uncompressed or
`(0x02 + parity(y)) ‖ x` compressed. -/
def ECP_toBytes (P : ECPv) (compress : Bool) : List Nat :=
  let W := ECPv.affineS P
  if compress then
    (if W.y.val % 2 = 1 then 3 else 2) :: toBytes32 W.x.val
  else
    4 :: (toBytes32 W.x.val ++ toBytes32 W.y.val)

/-- `ECP.fromBytes`: range-check each coordinate against the modulus,
then dispatch on the tag byte (`0x04` uncompressed via `setxy`,
`0x02`/`0x03` compressed via `setxi`, anything else yields the default
infinity point). -/
def ECP_fromBytes (b : List Nat) : ECPv :=
  let px := fromBytes32 ((b.drop 1).take 32)
  if pBN ≤ px then ECPv.infS
  else if b.headI = 4 then
    let py := fromBytes32 ((b.drop 33).take 32)
    if pBN ≤ py then ECPv.infS
    else ECPv.setxy px py
  else if b.headI = 2 ∨ b.headI = 3 then
    ECPv.setxi px (b.headI % 2)
  else ECPv.infS

/-- `ECP2.RHS`: `x³ + B/(1+i)` (`FP2(CURVE_B_I).div_ip()`). -/
def ECP2v.rhsS (x : FP2v) : FP2v :=
  FP2v.addS (FP2v.mulS (FP2v.sqrS x) x) (FP2v.divipS ⟨2, 0⟩)

/-- `ECP2.prototype.setxy`. -/
def ECP2v.setxyS (ix iy : FP2v) : ECP2v :=
  if FP2v.sqrS iy = ECP2v.rhsS ix then ⟨ix, iy, 1⟩ else ECP2v.infS

/-- `ECP2.fromBytes`: four 32-byte field elements (no range check against
the modulus), then `setxy`. -/
def ECP2_fromBytes (b : List Nat) : ECP2v :=
  let rax := fromBytes32 (b.take 32)
  let rbx := fromBytes32 ((b.drop 32).take 32)
  let ray := fromBytes32 ((b.drop 64).take 32)
  let rby := fromBytes32 ((b.drop 96).take 32)
  ECP2v.setxyS ⟨(rax : Fq), (rbx : Fq)⟩ ⟨(ray : Fq), (rby : Fq)⟩

/-! ## Supporting facts for the serialization round trip -/

/-- `-2` is not a cube in `F_p` (so no point of `ecp.js`'s curve has
`y = 0`).  Certified by a `powM` computation of `(-2)^((p-1)/3)`. -/
theorem neg_two_not_cube (x : Fq) : x ^ 3 ≠ -2 := by
  intro h
  have hx0 : x ≠ 0 := by
    intro h0
    rw [h0] at h
    have hz : (0 : Fq) ^ 3 = 0 := by norm_num
    rw [hz] at h
    exact (by decide : ¬(0 : Fq) = -2) h
  have h1 : x ^ (pBN - 1) = 1 := ZMod.pow_card_sub_one_eq_one hx0
  have h2 : (-2 : Fq) ^ ((pBN - 1) / 3) = 1 := by
    rw [← h, ← pow_mul,
      show 3 * ((pBN - 1) / 3) = pBN - 1 from by norm_num [pBN], h1]
  have hcast : ((pBN - 2 : Nat) : Fq) = -2 := by decide
  rw [← hcast, powM_cast _ _ (by norm_num [pBN])] at h2
  exact (by decide : ¬((powM (pBN - 2) ((pBN - 1) / 3) pBN : Nat) : Fq) = 1) h2

theorem onCurve_z_ne_zero {P : ECPv} (hc : P.onCurve) (hi : ¬P.isinf) :
    P.z ≠ 0 := by
  intro hz
  unfold ECPv.onCurve at hc
  rw [hz] at hc
  simp only [mul_zero, zero_pow, ne_eq] at hc
  have hx : P.x ^ 3 = 0 := by linear_combination -hc
  have : P.x = 0 := pow_eq_zero_iff (by omega) |>.mp hx
  exact hi ⟨this, hz⟩

theorem affineS_spec (P : ECPv) (hc : P.onCurve) (hi : ¬P.isinf) :
    (ECPv.affineS P).onCurve ∧ (ECPv.affineS P).z = 1
    ∧ ECPv.equalsS (ECPv.affineS P) P := by
  have hz := onCurve_z_ne_zero hc hi
  unfold ECPv.affineS
  rw [if_neg hi]
  by_cases hz1 : P.z = 1
  · rw [if_pos hz1]
    exact ⟨hc, hz1, rfl, rfl⟩
  · rw [if_neg hz1]
    have hinv : fpInv P.z * P.z = 1 := fpInv_mul_self P.z hz
    unfold ECPv.onCurve at hc ⊢
    refine ⟨?_, rfl, ?_, ?_⟩
    · show (P.y * fpInv P.z) ^ 2 * 1 = (P.x * fpInv P.z) ^ 3 + 2 * 1 ^ 3
      linear_combination (fpInv P.z ^ 3) * hc
        + (-(P.y ^ 2 * fpInv P.z ^ 2)
          + 2 * ((fpInv P.z * P.z) ^ 2 + fpInv P.z * P.z + 1)) * hinv
    · show P.x * fpInv P.z * P.z = P.x * 1
      linear_combination P.x * hinv
    · show P.y * fpInv P.z * P.z = P.y * 1
      linear_combination P.y * hinv

theorem affine_y_ne_zero {P : ECPv} (hc : P.onCurve) (h1 : P.z = 1) :
    P.y ≠ 0 := by
  intro hy
  unfold ECPv.onCurve at hc
  rw [hy, h1] at hc
  apply neg_two_not_cube P.x
  linear_combination -hc

theorem take_toBytes32_append (v : Nat) (B : List Nat) :
    (toBytes32 v ++ B).take 32 = toBytes32 v := by
  have h := toBytes32_length v
  rw [List.take_append_eq_append_take, h, Nat.sub_self, List.take_zero,
    List.append_nil, ← h, List.take_length]

theorem drop_toBytes32_append (v : Nat) (B : List Nat) :
    (toBytes32 v ++ B).drop 32 = B := by
  have h := toBytes32_length v
  rw [List.drop_append_eq_append_drop, h, Nat.sub_self, List.drop_zero]
  rw [List.drop_eq_nil_of_le (by omega), List.nil_append]

theorem take_toBytes32_self (v : Nat) : (toBytes32 v).take 32 = toBytes32 v := by
  have h := toBytes32_length v
  rw [← h, List.take_length]

/-- `fpSqrtv` squares back to its argument on squares. -/
theorem fpSqrtv_sq {y : Fq} (hy : y ≠ 0) : fpSqrtv (y * y) = y ∨ fpSqrtv (y * y) = -y := by
  have he : (pBN + 1) / 4 * 4 = pBN - 1 + 2 := by norm_num [pBN]
  have hhalf : (fpSqrtv (y * y)) ^ 2 = y ^ 2 := by
    unfold fpSqrtv
    rw [fpPow_eq, ← pow_two, ← pow_mul, ← pow_mul,
      show 2 * ((pBN + 1) / 4 * 2) = (pBN + 1) / 4 * 4 from by ring,
      he, pow_add, ZMod.pow_card_sub_one_eq_one hy, one_mul]
  have hfac : (fpSqrtv (y * y) - y) * (fpSqrtv (y * y) + y) = 0 := by
    linear_combination hhalf
  rcases mul_eq_zero.mp hfac with h | h
  · left; linear_combination h
  · right; linear_combination h

theorem fpJacobi_sq {y : Fq} (hy : y ≠ 0) : fpJacobi (y * y) = 1 := by
  unfold fpJacobi
  have hcast : (((y * y).val : Int) : Fq) = y * y := by
    push_cast
    exact ZMod.natCast_rightInverse (y * y)
  rw [← jacobiSym.legendreSym.to_jacobiSym]
  rw [legendreSym.eq_one_iff pBN (by rw [hcast]; exact mul_ne_zero hy hy)]
  rw [hcast]
  exact ⟨y, rfl⟩

/-- Claim C4: the ECP serialization round trip: for every point on the G1
curve other than infinity and either compression flag, `ECP.fromBytes`
applied to `ECP.toBytes` recovers a point equal (projectively, as
`ECP.prototype.equals` compares) to the original; compressed encodings
recover `y` from `x` and the parity tag `0x02`/`0x03`, uncompressed use
tag `0x04`. -/
theorem ecp_bytes_roundtrip (P : ECPv) (c : Bool) (hc : P.onCurve)
    (hi : ¬P.isinf) :
    ECPv.equalsS (ECP_fromBytes (ECP_toBytes P c)) P := by
  obtain ⟨hWc, hWz, hWeq⟩ := affineS_spec P hc hi
  set W := ECPv.affineS P with hW
  have hyne := affine_y_ne_zero hWc hWz
  have hWcurve : W.y * W.y = ECPv.rhs W.x := by
    unfold ECPv.onCurve at hWc
    unfold ECPv.rhs
    rw [hWz] at hWc
    linear_combination hWc
  have hxval : W.x.val < pBN := ZMod.val_lt _
  have hyval : W.y.val < pBN := ZMod.val_lt _
  have hp256 : pBN < 2 ^ 256 := by norm_num [pBN]
  have hxrt : fromBytes32 (toBytes32 W.x.val) = W.x.val :=
    fromBytes32_toBytes32 _ (by omega)
  have hyrt : fromBytes32 (toBytes32 W.y.val) = W.y.val :=
    fromBytes32_toBytes32 _ (by omega)
  have hxcast : ((W.x.val : Nat) : Fq) = W.x := ZMod.natCast_rightInverse W.x
  have hycast : ((W.y.val : Nat) : Fq) = W.y := ZMod.natCast_rightInverse W.y
  have hyv0 : W.y.val ≠ 0 := fun h => hyne ((ZMod.val_eq_zero _).mp h)
  have hresult : ECP_fromBytes (ECP_toBytes P c) = W := by
    cases c with
    | false =>
      have htb : ECP_toBytes P false
          = 4 :: (toBytes32 W.x.val ++ toBytes32 W.y.val) := rfl
      rw [htb]
      have hpx : fromBytes32 ((((4 : Nat) ::
          (toBytes32 W.x.val ++ toBytes32 W.y.val)).drop 1).take 32)
          = W.x.val := by
        rw [show ((4 : Nat) ::
            (toBytes32 W.x.val ++ toBytes32 W.y.val)).drop 1
          = toBytes32 W.x.val ++ toBytes32 W.y.val from rfl,
          take_toBytes32_append, hxrt]
      have hpy : fromBytes32 ((((4 : Nat) ::
          (toBytes32 W.x.val ++ toBytes32 W.y.val)).drop 33).take 32)
          = W.y.val := by
        rw [show ((4 : Nat) ::
            (toBytes32 W.x.val ++ toBytes32 W.y.val)).drop 33
          = (toBytes32 W.x.val ++ toBytes32 W.y.val).drop 32 from rfl,
          drop_toBytes32_append, take_toBytes32_self, hyrt]
      simp only [ECP_fromBytes]
      rw [hpx, hpy, if_neg (by omega), if_pos (show ((4 : Nat) :: _).headI = 4
        from rfl), if_neg (by omega)]
      simp only [ECPv.setxy]
      rw [hxcast, hycast, if_pos hWcurve]
      exact ECPv.ext rfl rfl hWz.symm
    | true =>
      have hodd : pBN % 2 = 1 := by norm_num [pBN]
      by_cases hpar : W.y.val % 2 = 1
      · have htb : ECP_toBytes P true = 3 :: toBytes32 W.x.val := by
          norm_num [ECP_toBytes, hpar]
        rw [htb]
        have hpx : fromBytes32 ((((3 : Nat) :: toBytes32 W.x.val).drop 1).take 32)
            = W.x.val := by
          rw [show ((3 : Nat) :: toBytes32 W.x.val).drop 1
            = toBytes32 W.x.val from rfl, take_toBytes32_self, hxrt]
        simp only [ECP_fromBytes]
        rw [hpx, if_neg (by omega), if_neg (by simp), if_pos (by simp)]
        have hs : ((3 : Nat) :: toBytes32 W.x.val).headI % 2 = 1 := by simp [List.headI]
        rw [hs]
        simp only [ECPv.setxi]
        rw [hxcast, ← hWcurve, if_pos (fpJacobi_sq hyne)]
        rcases fpSqrtv_sq hyne with hny | hny
        · rw [hny, if_neg (not_not_intro hpar)]
          exact ECPv.ext rfl rfl hWz.symm
        · rw [hny]
          have hnegval : (-W.y).val = pBN - W.y.val := by
            rw [ZMod.neg_val, if_neg hyne]
          rw [if_pos (by rw [hnegval]; omega), neg_neg]
          exact ECPv.ext rfl rfl hWz.symm
      · have hpar0 : W.y.val % 2 = 0 := by omega
        have htb : ECP_toBytes P true = 2 :: toBytes32 W.x.val := by
          norm_num [ECP_toBytes, hpar0]
        rw [htb]
        have hpx : fromBytes32 ((((2 : Nat) :: toBytes32 W.x.val).drop 1).take 32)
            = W.x.val := by
          rw [show ((2 : Nat) :: toBytes32 W.x.val).drop 1
            = toBytes32 W.x.val from rfl, take_toBytes32_self, hxrt]
        simp only [ECP_fromBytes]
        rw [hpx, if_neg (by omega), if_neg (by simp), if_pos (by simp)]
        have hs : ((2 : Nat) :: toBytes32 W.x.val).headI % 2 = 0 := by simp [List.headI]
        rw [hs]
        simp only [ECPv.setxi]
        rw [hxcast, ← hWcurve, if_pos (fpJacobi_sq hyne)]
        rcases fpSqrtv_sq hyne with hny | hny
        · rw [hny, if_neg (by omega)]
          exact ECPv.ext rfl rfl hWz.symm
        · rw [hny]
          have hnegval : (-W.y).val = pBN - W.y.val := by
            rw [ZMod.neg_val, if_neg hyne]
          rw [if_pos (by rw [hnegval]; omega), neg_neg]
          exact ECPv.ext rfl rfl hWz.symm
  rw [hresult]
  exact hWeq

/-- Witness for claim C4 at the ROM generator, uncompressed. -/
theorem ecp_bytes_roundtrip_witness :
    ECPv.onCurve ⟨pBN - 1, 1, 1⟩ ∧ ¬ECPv.isinf ⟨pBN - 1, 1, 1⟩
    ∧ ECPv.equalsS
        (ECP_fromBytes (ECP_toBytes ⟨pBN - 1, 1, 1⟩ false)) ⟨pBN - 1, 1, 1⟩ :=
  ⟨by decide, by decide,
    ecp_bytes_roundtrip ⟨pBN - 1, 1, 1⟩ false (by decide) (by decide)⟩

/-! ## Claim C5: the invalid-encoding policy -/

/-- A 128-byte `ECP2` encoding whose first coordinate is
`CURVE_Pxa + p ≥ p` (the remaining three are the G2 generator's). -/
def ecp2BadBytes : List Nat :=
  [43, 61, 117, 61, 145, 158, 182, 49, 165, 193, 217, 254, 140, 97, 237, 191,
 5, 133, 139, 187, 72, 152, 191, 33, 56, 238, 66, 36, 200, 3, 251, 62,
 5, 22, 170, 249, 186, 115, 120, 51, 49, 10, 167, 140, 89, 130, 170, 91,
 31, 77, 116, 107, 174, 55, 132, 183, 13, 140, 52, 193, 231, 213, 76, 243,
 2, 24, 151, 160, 107, 175, 147, 67, 154, 144, 224, 150, 105, 140, 130, 35,
 41, 189, 10, 230, 189, 190, 9, 189, 25, 240, 224, 120, 145, 205, 43, 154,
 14, 187, 43, 14, 124, 139, 21, 38, 143, 109, 68, 86, 245, 243, 141, 55,
 176, 144, 6, 255, 215, 57, 201, 87, 138, 45, 26, 236, 107, 58, 206, 155]

/-- Claim C5, counterexample to the stated property: `ECP2.fromBytes`
performs no range check, so an encoding with a coordinate `≥ p` (here
`CURVE_Pxa + p`) silently wraps modulo `p` and decodes to a non-infinity
point. -/
theorem ecp2_frombytes_accepts_out_of_range :
    pBN ≤ fromBytes32 (ecp2BadBytes.take 32)
    ∧ ¬(ECP2_fromBytes ecp2BadBytes).isinf := by
  constructor
  · decide
  · decide

/-- Claim C5 (corrected): `ECP.fromBytes` maps every invalid encoding (a
coordinate `≥ p`, a non-on-curve `(x, y)` under tag `0x04`, a non-residue
under tags `0x02`/`0x03`, or an unknown tag) to the point at infinity;
`ECP2.fromBytes` rejects non-on-curve coordinates via `setxy`, but performs
no range check against the modulus.  (Compressed tags with a non-residue
`RHS(x)` likewise yield infinity via `setxi`.) -/
theorem frombytes_invalid_to_infinity :
    (∀ b : List Nat, pBN ≤ fromBytes32 ((b.drop 1).take 32) →
      (ECP_fromBytes b).isinf)
    ∧ (∀ b : List Nat, b.headI = 4 →
        pBN ≤ fromBytes32 ((b.drop 33).take 32) → (ECP_fromBytes b).isinf)
    ∧ (∀ b : List Nat, b.headI = 4 →
        ((fromBytes32 ((b.drop 33).take 32) : Fq))
            * ((fromBytes32 ((b.drop 33).take 32) : Fq))
          ≠ ECPv.rhs ((fromBytes32 ((b.drop 1).take 32) : Fq)) →
        (ECP_fromBytes b).isinf)
    ∧ (∀ b : List Nat, ¬(b.headI = 4 ∨ b.headI = 2 ∨ b.headI = 3) →
        (ECP_fromBytes b).isinf)
    ∧ ∀ b : List Nat,
        FP2v.sqrS ⟨(fromBytes32 ((b.drop 64).take 32) : Fq),
            (fromBytes32 ((b.drop 96).take 32) : Fq)⟩
          ≠ ECP2v.rhsS ⟨(fromBytes32 (b.take 32) : Fq),
            (fromBytes32 ((b.drop 32).take 32) : Fq)⟩ →
        (ECP2_fromBytes b).isinf := by
  have hinf : ECPv.infS.isinf := by decide
  have hinf2 : ECP2v.infS.isinf := by decide
  refine ⟨?_, ?_, ?_, ?_, ?_⟩
  · intro b hb
    simp only [ECP_fromBytes]
    rw [if_pos hb]
    exact hinf
  · intro b h4 hb
    simp only [ECP_fromBytes]
    by_cases h1 : pBN ≤ fromBytes32 ((b.drop 1).take 32)
    · rw [if_pos h1]; exact hinf
    · rw [if_neg h1, if_pos h4, if_pos hb]; exact hinf
  · intro b h4 hcurve
    simp only [ECP_fromBytes]
    by_cases h1 : pBN ≤ fromBytes32 ((b.drop 1).take 32)
    · rw [if_pos h1]; exact hinf
    · rw [if_neg h1, if_pos h4]
      by_cases h2 : pBN ≤ fromBytes32 ((b.drop 33).take 32)
      · rw [if_pos h2]; exact hinf
      · rw [if_neg h2]
        simp only [ECPv.setxy]
        rw [if_neg hcurve]
        exact hinf
  · intro b hno
    simp only [ECP_fromBytes]
    by_cases h1 : pBN ≤ fromBytes32 ((b.drop 1).take 32)
    · rw [if_pos h1]; exact hinf
    · push_neg at hno
      rw [if_neg h1, if_neg hno.1, if_neg (by tauto)]
      exact hinf
  · intro b hcurve
    simp only [ECP2_fromBytes, ECP2v.setxyS]
    rw [if_neg hcurve]
    exact hinf2

/-- Witness for claim C5 at concrete encodings. -/
theorem frombytes_invalid_to_infinity_witness :
    (pBN ≤ fromBytes32 (((0 :: List.replicate 32 255).drop 1).take 32)
      ∧ (ECP_fromBytes (0 :: List.replicate 32 255)).isinf)
    ∧ ((4 :: (List.replicate 32 0 ++ List.replicate 32 255) : List Nat).headI = 4
      ∧ pBN ≤ fromBytes32
          (((4 :: (List.replicate 32 0 ++ List.replicate 32 255)).drop 33).take 32)
      ∧ (ECP_fromBytes (4 :: (List.replicate 32 0 ++ List.replicate 32 255))).isinf)
    ∧ ((4 :: List.replicate 64 0 : List Nat).headI = 4
      ∧ ((fromBytes32 (((4 :: List.replicate 64 0).drop 33).take 32) : Fq))
            * ((fromBytes32 (((4 :: List.replicate 64 0).drop 33).take 32) : Fq))
          ≠ ECPv.rhs ((fromBytes32 (((4 :: List.replicate 64 0).drop 1).take 32) : Fq))
      ∧ (ECP_fromBytes (4 :: List.replicate 64 0)).isinf)
    ∧ (¬(([7] : List Nat).headI = 4 ∨ ([7] : List Nat).headI = 2
        ∨ ([7] : List Nat).headI = 3)
      ∧ (ECP_fromBytes [7]).isinf)
    ∧ (FP2v.sqrS ⟨(fromBytes32 ((([] : List Nat).drop 64).take 32) : Fq),
          (fromBytes32 ((([] : List Nat).drop 96).take 32) : Fq)⟩
        ≠ ECP2v.rhsS ⟨(fromBytes32 (([] : List Nat).take 32) : Fq),
          (fromBytes32 ((([] : List Nat).drop 32).take 32) : Fq)⟩
      ∧ (ECP2_fromBytes ([] : List Nat)).isinf) :=
  ⟨⟨by decide, frombytes_invalid_to_infinity.1 _ (by decide)⟩,
   ⟨by decide, by decide,
     frombytes_invalid_to_infinity.2.1 _ (by decide) (by decide)⟩,
   ⟨by decide, by decide,
     frombytes_invalid_to_infinity.2.2.1 _ (by decide) (by decide)⟩,
   ⟨by decide, frombytes_invalid_to_infinity.2.2.2.1 _ (by decide)⟩,
   ⟨by decide, frombytes_invalid_to_infinity.2.2.2.2 _ (by decide)⟩⟩

/-!
### Limb-level BIG arithmetic (`big.js`)

`BIG` stores a 254-bit integer in `NLEN = 11` signed JavaScript-number limbs of
`BASEBITS = 24` bits each (`BMASK = 2^24 - 1`).  We model the limb vector as a
function `ℕ → ℤ`; only indices `0..10` are meaningful.  JavaScript's `x >> k`
(arithmetic shift) and `x & (2^k - 1)` on in-range values are exactly Lean's
`Int` `/ 2^k` (Euclidean division, rounding towards −∞) and `% 2^k`
(non-negative remainder), which is how they are transliterated throughout.
-/

/-- The integer represented by an 11-limb vector, base `2^24`. -/
def bigVal (w : ℕ → ℤ) : ℤ := (Finset.range 11).sum (fun i => w i * 2 ^ (24 * i))

/-- Carry entering limb `i` of `BIG.norm` (`big.js` 220-231): the `carry`
variable just before loop iteration `i`, with `carry = d >> BASEBITS` for
`d = w[i] + carry`. -/
def normCarry (w : ℕ → ℤ) : ℕ → ℤ
  | 0 => 0
  | i + 1 => (w i + normCarry w i) / 2 ^ 24

/-- `BIG.prototype.norm` (`big.js` 220-231): limbs `0..9` get
`(w[i] + carry) & BMASK`; the top limb receives `w[10] + carry` WITHOUT being
masked.  The source returns `this` (the excess-returning line is commented
out in the source). -/
def bigNorm (w : ℕ → ℤ) : ℕ → ℤ := fun i =>
  if i < 10 then (w i + normCarry w i) % 2 ^ 24
  else if i = 10 then w 10 + normCarry w 10
  else w i

/-- The halved modulus written in place by `BIG.ssn` (`big.js` 977-995):
`m.w[i] = (m.w[i] >> 1) | ((m.w[i+1] << 23) & BMASK)` for `i < 10` (each
iteration reads the not-yet-updated `m.w[i+1]`), and `m.w[10] >>= 1`. -/
def ssnM (m : ℕ → ℤ) : ℕ → ℤ := fun i =>
  if i < 10 then m i / 2 + m (i + 1) * 2 ^ 23 % 2 ^ 24
  else if i = 10 then m 10 / 2
  else m i

/-- Borrow entering limb `i` of the subtraction in `BIG.ssn`:
`carry = r.w[i-1] >> BASEBITS` taken before masking. -/
def ssnC (a m : ℕ → ℤ) : ℕ → ℤ
  | 0 => 0
  | i + 1 => (a i - ssnM m i + ssnC a m i) / 2 ^ 24

/-- The result limbs `r` of `BIG.ssn`: `r.w[i] = (a.w[i] - m.w[i] + carry) & BMASK`
for `i < 10` (`m` already halved), and the top limb `a.w[10] - m.w[10] + carry`
left unmasked. -/
def ssnR (a m : ℕ → ℤ) : ℕ → ℤ := fun i =>
  if i < 10 then (a i - ssnM m i + ssnC a m i) % 2 ^ 24
  else if i = 10 then a 10 - ssnM m 10 + ssnC a m 10
  else 0

/-- The value returned by `BIG.ssn`: `(r.w[10] >> (CHUNK - 1)) & 1`, the sign
bit of the 32-bit top limb. -/
def ssnSign (a m : ℕ → ℤ) : ℤ := (a 10 - ssnM m 10 + ssnC a m 10) / 2 ^ 31 % 2

/-- `BIG.ssn(r, a, m)` as a pure function: the written `r`, the new contents
of the mutated argument `m`, and the returned sign bit. -/
def ssnS (a m : ℕ → ℤ) : (ℕ → ℤ) × (ℕ → ℤ) × ℤ := (ssnR a m, ssnM m, ssnSign a m)

/-- `BIG.prototype.fshl` (`big.js` 284-295): the top limb is computed first and
is NOT masked; limbs `9..1` are `((w[i] << k) & BMASK) | (w[i-1] >> (24-k))`
(the `|` of the two disjoint bit ranges is written `+`); limb `0` is
`(w[0] << k) & BMASK`. -/
def fshlL (w : ℕ → ℤ) (k : ℕ) : ℕ → ℤ := fun i =>
  if i = 0 then w 0 * 2 ^ k % 2 ^ 24
  else if i < 10 then w i * 2 ^ k % 2 ^ 24 + w (i - 1) / 2 ^ (24 - k)
  else if i = 10 then w 10 * 2 ^ k + w 9 / 2 ^ (24 - k)
  else w i

/-- Carry entering limb `i` of `BIG.pmul` (`big.js` 570-580), via `muladd`
(`big.js` 557-561): `prod = w[i]*c + carry`, carry out
`(prod - (prod & BMASK)) * MODINV = prod >> 24`. -/
def pmulCo (w : ℕ → ℤ) (c : ℤ) : ℕ → ℤ
  | 0 => 0
  | i + 1 => (w i * c + pmulCo w c i) / 2 ^ 24

/-- `BIG.prototype.pmul`: limbs of `this` after the call (the final carry is
`pmulCo w c 11`). -/
def pmulL (w : ℕ → ℤ) (c : ℤ) : ℕ → ℤ := fun i =>
  if i ≤ 10 then (w i * c + pmulCo w c i) % 2 ^ 24 else w i

/-- Counterexample to claim C8: `norm` does not mask the top limb, so a limb
can remain `≥ 2^24` after normalisation (here `w[10] = 2^24` survives
unchanged); moreover the high-limb-excess return statement is commented out in
the source, which returns `this` instead. -/
theorem big_norm_top_limb_unmasked :
    2 ^ 24 ≤ bigNorm (fun i => if i = 10 then 2 ^ 24 else 0) 10 := by decide

/-- Claim C8 (corrected): after `norm()` every limb `0..9` lies in `[0, 2^24)`
and the represented value is preserved, but the top limb is only
carry-adjusted (`w[10] + carry`), not masked, and the function returns the
`BIG` itself rather than the high-limb excess. -/
theorem big_norm_postcondition :
    (∀ w : ℕ → ℤ, ∀ i, i < 10 → 0 ≤ bigNorm w i ∧ bigNorm w i < 2 ^ 24)
    ∧ (∀ w : ℕ → ℤ, bigVal (bigNorm w) = bigVal w)
    ∧ (∀ w : ℕ → ℤ, bigNorm w 10 = w 10 + normCarry w 10) := by
  refine ⟨fun w i hi => ?_, fun w => ?_, fun w => ?_⟩
  · simp only [bigNorm, if_pos hi]
    omega
  · have e0 : normCarry w 0 = 0 := rfl
    have e1 : normCarry w 1 = (w 0 + normCarry w 0) / 2 ^ 24 := rfl
    have e2 : normCarry w 2 = (w 1 + normCarry w 1) / 2 ^ 24 := rfl
    have e3 : normCarry w 3 = (w 2 + normCarry w 2) / 2 ^ 24 := rfl
    have e4 : normCarry w 4 = (w 3 + normCarry w 3) / 2 ^ 24 := rfl
    have e5 : normCarry w 5 = (w 4 + normCarry w 4) / 2 ^ 24 := rfl
    have e6 : normCarry w 6 = (w 5 + normCarry w 5) / 2 ^ 24 := rfl
    have e7 : normCarry w 7 = (w 6 + normCarry w 6) / 2 ^ 24 := rfl
    have e8 : normCarry w 8 = (w 7 + normCarry w 7) / 2 ^ 24 := rfl
    have e9 : normCarry w 9 = (w 8 + normCarry w 8) / 2 ^ 24 := rfl
    have e10 : normCarry w 10 = (w 9 + normCarry w 9) / 2 ^ 24 := rfl
    simp only [bigVal, Finset.sum_range_succ, Finset.sum_range_zero, bigNorm]
    norm_num
    simp only [Int.emod_def, e10, e9, e8, e7, e6, e5, e4, e3, e2, e1, e0]
    ring_nf
  · simp [bigNorm]

/-- Witness for claim C8 at a concrete limb vector. -/
theorem big_norm_postcondition_witness :
    0 ≤ bigNorm (fun _ => 2 ^ 30) 3 ∧ bigNorm (fun _ => 2 ^ 30) 3 < 2 ^ 24 :=
  big_norm_postcondition.1 (fun _ => 2 ^ 30) 3 (by decide)

/-!
### Double-length multiplication and Montgomery reduction (`big.js`)

`BIG.mul`, `BIG.sqr` and `BIG.monty` are Karatsuba-comba loops that first fill
a 22-limb array of unnormalised column values and then run a single carry
chain.  The running accumulators `s`/`t` of the source are written below as
closed `Finset` sums over the same index ranges (`s` after step `j` is the
partial sum `Σ_{k ≤ j} d_k`, etc.); the column values produced are identical.
-/

/-- Column `k` of `BIG.mul(a, b)` before the carry chain (`big.js` 1074-1105):
`d_j = a_j·b_j`, `s` the running sum of the `d_j`, and the Karatsuba cross
terms `(a_i - a_{k-i})(b_{k-i} - b_i)` for `i` from `1 + ⌊k/2⌋` up to
`min k 10`. -/
def mulDpre (a b : ℕ → ℤ) (k : ℕ) : ℤ :=
  if k = 0 then a 0 * b 0
  else if k ≤ 10 then
    (Finset.range (k + 1)).sum (fun j => a j * b j)
      + (Finset.Icc (1 + k / 2) k).sum (fun i => (a i - a (k - i)) * (b (k - i) - b i))
  else
    ((Finset.range 11).sum (fun j => a j * b j)
        - (Finset.range (k - 10)).sum (fun j => a j * b j))
      + (Finset.Icc (1 + k / 2) 10).sum (fun i => (a i - a (k - i)) * (b (k - i) - b i))

/-- The carry entering column `i` of the final normalisation loop shared by
`BIG.mul` and `BIG.sqr` (`big.js` 1106-1112): `co = (n - (n & BMASK)) * MODINV`
is exactly `n >> 24` (`MODINV = 2⁻²⁴` exactly in floating point). -/
def combaCo (c : ℕ → ℤ) : ℕ → ℤ
  | 0 => 0
  | i + 1 => (c i + combaCo c i) / 2 ^ 24

/-- The 22 output limbs of the comba carry chain: limbs `0..20` are
`(c_i + co) & BMASK`, limb `21` is the final carry. -/
def combaOut (c : ℕ → ℤ) : ℕ → ℤ := fun i =>
  if i < 21 then (c i + combaCo c i) % 2 ^ 24
  else if i = 21 then combaCo c 21
  else 0

/-- `BIG.mul(a, b)`: 22-limb `DBIG` product. -/
def mulDB (a b : ℕ → ℤ) : ℕ → ℤ := combaOut (mulDpre a b)

/-- Column `j` of `BIG.sqr(a)` before the carry chain (`big.js` 1122-1168):
the first paired loop covers `j = 1..10`, the second `j = 11..18`, and columns
`19`, `20` are set explicitly; even columns add the square term
`a_{j/2}²` after the doubling `t += t`. -/
def sqrDpre (a : ℕ → ℤ) (j : ℕ) : ℤ :=
  if j = 0 then a 0 * a 0
  else if j ≤ 10 then
    2 * (a j * a 0 + (Finset.Ico 1 ((j + 1) / 2)).sum (fun i => a (j - i) * a i))
      + (if j % 2 = 0 then a (j / 2) * a (j / 2) else 0)
  else if j ≤ 18 then
    2 * (a 10 * a (j - 10) + (Finset.Ico (j - 9) ((j + 1) / 2)).sum (fun i => a (j - i) * a i))
      + (if j % 2 = 0 then a (j / 2) * a (j / 2) else 0)
  else if j = 19 then 2 * (a 9 * a 10)
  else if j = 20 then a 10 * a 10
  else 0

/-- `BIG.sqr(a)`: 22-limb `DBIG` square. -/
def sqrDB (a : ℕ → ℤ) : ℕ → ℤ := combaOut (sqrDpre a)

/-- State of the first loop of `BIG.monty(m, nd, d)` (`big.js` 1181-1205)
after processing column `k`: the Montgomery digits `v[0..k]`, the carry `c`
and the running sum `s` entering column `k+1`.  Column `k ≥ 1` computes
`t = c + s + v[0]·m[k] + Σ_{⌊k/2⌋ < i < k} (v[k-i] - v[i])(m[i] - m[k-i])`,
then `v[k] = ((t & BMASK)·nd) & BMASK`, `c = (t + v[k]·m[0]) >> 24 + d[k+1]`,
`s += v[k]·m[k]`. -/
def montyStep (m : ℕ → ℤ) (nd : ℤ) (d : ℕ → ℤ) : ℕ → List ℤ × ℤ × ℤ
  | 0 =>
    ([d 0 % 2 ^ 24 * nd % 2 ^ 24],
      (d 0 + d 0 % 2 ^ 24 * nd % 2 ^ 24 * m 0) / 2 ^ 24 + d 1, 0)
  | k + 1 =>
    let st := montyStep m nd d k
    let t := st.2.1 + st.2.2 + st.1.getD 0 0 * m (k + 1)
      + (Finset.Ioc ((k + 1) / 2) k).sum
          (fun i => (st.1.getD (k + 1 - i) 0 - st.1.getD i 0) * (m i - m (k + 1 - i)))
    let vk := t % 2 ^ 24 * nd % 2 ^ 24
    (st.1 ++ [vk], (t + vk * m 0) / 2 ^ 24 + d (k + 2), st.2.2 + vk * m (k + 1))

/-- State `(c, s)` of the second loop of `BIG.monty` (`big.js` 1206-1219)
before processing column `k = 11 + j`. -/
def montyOutStep (m : ℕ → ℤ) (nd : ℤ) (d : ℕ → ℤ) : ℕ → ℤ × ℤ
  | 0 => ((montyStep m nd d 10).2.1, (montyStep m nd d 10).2.2)
  | j + 1 =>
    let vs := (montyStep m nd d 10).1
    let cs := montyOutStep m nd d j
    let t := cs.1 + cs.2 + (Finset.Icc (1 + (11 + j) / 2) 10).sum
        (fun i => (vs.getD (11 + j - i) 0 - vs.getD i 0) * (m i - m (11 + j - i)))
    (t / 2 ^ 24 + d (12 + j), cs.2 - vs.getD (j + 1) 0 * m (j + 1))

/-- Column value `t` of the second `monty` loop at output index `j`
(column `k = 11 + j`). -/
def montyTee (m : ℕ → ℤ) (nd : ℤ) (d : ℕ → ℤ) (j : ℕ) : ℤ :=
  (montyOutStep m nd d j).1 + (montyOutStep m nd d j).2
    + (Finset.Icc (1 + (11 + j) / 2) 10).sum
        (fun i => ((montyStep m nd d 10).1.getD (11 + j - i) 0
            - (montyStep m nd d 10).1.getD i 0) * (m i - m (11 + j - i)))

/-- `BIG.monty(m, nd, d)`: output limbs `b[j] = t & BMASK` for `j < 10` and
`b[10] = c & BMASK` after the last column. -/
def montyB (m : ℕ → ℤ) (nd : ℤ) (d : ℕ → ℤ) : ℕ → ℤ := fun i =>
  if i < 10 then montyTee m nd d i % 2 ^ 24
  else if i = 10 then (montyOutStep m nd d 10).1 % 2 ^ 24
  else 0

/-!
### The FP type (`fp.js`)

The `ROM_FIELD` constants for BN254 are not part of this repository's `src/`
(`rom_field.js` is loaded from the ambient build).  Modelled from the spec:
`Modulus` holds the limbs of the field prime `p` = `pBN`, `R2modp` holds
`2^(2·BASEBITS·NLEN) mod p = 2^528 mod p`, and `MConst = -p⁻¹ mod 2^24`
(the sanity check `mconst_spec` below pins the literal down against `pBN`).
-/

/-- Limbs of the field modulus (`ROM_FIELD.Modulus`). -/
def ModulusL : ℕ → ℤ := fun i => ((pBN / 2 ^ (24 * i)) % 2 ^ 24 : ℕ)

/-- `2^528 mod p`, the Montgomery constant `R² mod p`. -/
def R2modpN : ℕ := 2 ^ 528 % pBN

/-- Limbs of `R2modp` (`ROM_FIELD.R2modp`). -/
def R2modpL : ℕ → ℤ := fun i => ((R2modpN / 2 ^ (24 * i)) % 2 ^ 24 : ℕ)

/-- `ROM_FIELD.MConst` `= -p⁻¹ mod 2^24`. -/
def MConst : ℤ := 0x9435E5

theorem mconst_spec : (pBN * 0x9435E5) % 2 ^ 24 = 2 ^ 24 - 1 := by decide

/-- `FP.FEXCESS = (1 << 10) - 1` (`fp.js`). -/
def FEXCESS : ℤ := 2 ^ 10 - 1

/-- An `FP` element: limb vector of the residue-form value, and the excess
tag `XES`. -/
structure FPl where
  f : ℕ → ℤ
  XES : ℤ

/-- `FP.mod(d)` (`fp.js` 632-640): Montgomery-reduce a `DBIG` with the
field modulus and `MConst`. -/
def FPmodL (d : ℕ → ℤ) : ℕ → ℤ := montyB ModulusL MConst d

/-- `FP.prototype.nres`: multiply by `R2modp` and Montgomery-reduce;
`XES` becomes 2. -/
def FPl.nresF (x : FPl) : FPl := ⟨FPmodL (mulDB x.f R2modpL), 2⟩

/-- The `FP(c)` constructor for an integer `c ≥ 0`: limb 0 holds `c`,
`XES = 1`, and a nonzero value is converted to residue form. -/
def FPl.newF (c : ℤ) : FPl :=
  if c = 0 then ⟨fun i => if i = 0 then c else 0, 1⟩
  else FPl.nresF ⟨fun i => if i = 0 then c else 0, 1⟩

/-- `FP.logb2(v)`: the bit-twiddling smear-and-popcount computes the bit
length of the 32-bit value `v`, i.e. `Nat.size` of the value. -/
def logb2L (v : ℤ) : ℕ := Nat.size v.toNat

/-- `FP.quo(n, m)` (`fp.js` 610-625): `TBITS = 254 % 24 = 14 < 16 = hb`, so
`sh = 2` and the estimate is `⌊num / (den + 1)⌋` built from the top limb
shifted left by 2 or-ed with the top 2 bits of the next limb (written `+`). -/
def quoF (n m : ℕ → ℤ) : ℤ :=
  (n 10 * 2 ^ 2 + n 9 / 2 ^ 22) / (m 10 * 2 ^ 2 + m 9 / 2 ^ 22 + 1)

/-- One iteration of the constant-time loop of `FP.reduce` (`fp.js` 221-227):
`sr = BIG.ssn(r, f, m)` then `f.cmove(r, 1 - sr)` (the `cmove` copies exactly
when its flag is 1). -/
def redStep (f m : ℕ → ℤ) : (ℕ → ℤ) × (ℕ → ℤ) :=
  (fun i => if 1 - ssnSign f m = 1 then ssnR f m i else f i, ssnM m)

/-- The `FP.reduce` loop iterated `k` times. -/
def redLoop (fm : (ℕ → ℤ) × (ℕ → ℤ)) : ℕ → (ℕ → ℤ) × (ℕ → ℤ)
  | 0 => fm
  | k + 1 => redStep (redLoop fm k).1 (redLoop fm k).2

/-- `FP.prototype.reduce` (`fp.js` 201-233): normalise `f`; if `XES > 16`
subtract `q·p` (with the carry of `pmul` folded back into the top limb of
`r`) and set `sb = 2`, else `sb = logb2(XES - 1)`; shift the modulus register
left by `sb`; run the `ssn`/`cmove` loop `sb` times; set `XES = 1`. -/
def reduceF (x : FPl) : FPl :=
  let f0 := bigNorm x.f
  if 16 < x.XES then
    let q := quoF f0 ModulusL
    let r := fun i => if i = 10
      then pmulL ModulusL q 10 + pmulCo ModulusL q 11 * 2 ^ 24
      else pmulL ModulusL q i
    let f1 := bigNorm (fun i => f0 i - r i)
    ⟨(redLoop (f1, fshlL ModulusL 2) 2).1, 1⟩
  else
    let sb := logb2L (x.XES - 1)
    ⟨(redLoop (f0, fshlL ModulusL sb) sb).1, 1⟩

/-- `FP.prototype.add` (`fp.js` 321-330): limbwise add, `XES` tags add, and
a reduce is forced when the excess passes `FEXCESS`. -/
def FPl.addF (x y : FPl) : FPl :=
  let s : FPl := ⟨fun i => x.f i + y.f i, x.XES + y.XES⟩
  if FEXCESS < s.XES then reduceF s else s

/-- `FP.prototype.neg` (`fp.js` 337-351): `f` becomes `(p << sb) - f` with
`sb = logb2(XES - 1)`, the new excess is `2^sb + 1`, and a reduce is forced
past `FEXCESS`. -/
def FPl.negF (x : FPl) : FPl :=
  let sb := logb2L (x.XES - 1)
  let r : FPl := ⟨fun i => fshlL ModulusL sb i - x.f i, 2 ^ sb + 1⟩
  if FEXCESS < r.XES then reduceF r else r

/-- `FP.prototype.sub`: `this.add(new FP(b).neg())`. -/
def FPl.subF (x y : FPl) : FPl := FPl.addF x (FPl.negF y)

/-- `FP.prototype.mul` (`fp.js` 261-271): reduce `this` first if
`XES·b.XES > FEXCESS`, then Montgomery multiply; result excess 2. -/
def FPl.mulF (x y : FPl) : FPl :=
  let x' := if FEXCESS < x.XES * y.XES then reduceF x else x
  ⟨FPmodL (mulDB x'.f y.f), 2⟩

/-- `FP.prototype.sqr` (`fp.js` 307-317). -/
def FPl.sqrF (x : FPl) : FPl :=
  let x' := if FEXCESS < x.XES * x.XES then reduceF x else x
  ⟨FPmodL (sqrDB x'.f), 2⟩

/-- `FP.prototype.imul` (`fp.js` 279-300): on a non-negative multiplier,
`pmul` in place when `XES·c ≤ FEXCESS` (tag becomes `XES·c`), else a full
`mul` by `FP(c)`; a negative multiplier negates (and `norm`s) afterwards. -/
def FPl.imulF (x : FPl) (c : ℤ) : FPl :=
  let cp := if c < 0 then -c else c
  let r := if x.XES * cp ≤ FEXCESS
    then ⟨pmulL x.f cp, x.XES * cp⟩
    else FPl.mulF x (FPl.newF cp)
  if c < 0 then
    let n := FPl.negF r
    ⟨bigNorm n.f, n.XES⟩
  else r

/-- Counterexample to claim C7: the excess ceiling is respected, but the
claimed limb invariant `limb · XES < 2^32` is not.  Starting from `FP(1)` in
residue form (whose limb 1 is `2^24 - 1`) and doubling four times by `add`,
no reduce is triggered (`XES = 32 ≤ FEXCESS`), yet
`limb₁ · XES = 268435440 · 32 ≥ 2^32`. -/
theorem fp_limb_excess_product_overflow :
    (let one := FPl.newF 1
     let x2 := FPl.addF one one
     let x4 := FPl.addF x2 x2
     let x8 := FPl.addF x4 x4
     let x16 := FPl.addF x8 x8
     x16.XES ≤ FEXCESS ∧ ¬ x16.f 1 * x16.XES < 2 ^ 32) := by decide

/-- Claim C7 (corrected): after every public `FP` operation the excess tag
satisfies `XES ≤ FEXCESS = 2^10 - 1`, and an internal reduce (which resets
`XES` to 1) is forced whenever an operation would push the excess past the
ceiling; `mul` and `sqr` always return excess 2.  (The spec's further claim
that every limb satisfies `limb · XES < 2^32` is refuted by
the four-additions trace above.) -/
theorem fp_excess_invariant :
    (∀ x : FPl, (reduceF x).XES = 1)
    ∧ (∀ x y : FPl, (FPl.addF x y).XES ≤ FEXCESS)
    ∧ (∀ x y : FPl, (FPl.subF x y).XES ≤ FEXCESS)
    ∧ (∀ x : FPl, (FPl.negF x).XES ≤ FEXCESS)
    ∧ (∀ x y : FPl, (FPl.mulF x y).XES = 2)
    ∧ (∀ x : FPl, (FPl.sqrF x).XES = 2)
    ∧ (∀ x : FPl, ∀ c : ℤ, (FPl.imulF x c).XES ≤ FEXCESS) := by
  have hred : ∀ x : FPl, (reduceF x).XES = 1 := by
    intro x
    simp only [reduceF]
    split <;> rfl
  have hone : (1 : ℤ) ≤ FEXCESS := by norm_num [FEXCESS]
  have hadd : ∀ x y : FPl, (FPl.addF x y).XES ≤ FEXCESS := by
    intro x y
    simp only [FPl.addF]
    split
    · rw [hred]; exact hone
    · exact le_of_not_lt (by assumption)
  have hneg : ∀ x : FPl, (FPl.negF x).XES ≤ FEXCESS := by
    intro x
    simp only [FPl.negF]
    split
    · rw [hred]; exact hone
    · exact le_of_not_lt (by assumption)
  have hmul : ∀ x y : FPl, (FPl.mulF x y).XES = 2 := fun x y => rfl
  refine ⟨hred, hadd, fun x y => hadd x (FPl.negF y), hneg, hmul, fun x => rfl, ?_⟩
  intro x c
  simp only [FPl.imulF]
  split
  · exact hneg _
  · split
    · assumption
    · exact le_of_eq_of_le (hmul _ _) (by norm_num [FEXCESS])

/-- The halved modulus written by `ssn` is again a normalised limb vector. -/
theorem ssnM_bounds (m : ℕ → ℤ) (hm : ∀ i, i ≤ 10 → 0 ≤ m i ∧ m i < 2 ^ 24) :
    ∀ i, i ≤ 10 → 0 ≤ ssnM m i ∧ ssnM m i < 2 ^ 24 := by
  intro i hi
  rcases Nat.lt_or_ge i 10 with h | h
  · have h1 := hm i hi
    have h2 := hm (i + 1) (by omega)
    simp only [ssnM, if_pos h]
    omega
  · have h10 : i = 10 := by omega
    subst h10
    have h1 := hm 10 (le_refl _)
    simp only [ssnM]
    norm_num
    omega

/-- Value identity for the in-place halving: twice the new modulus value plus
the dropped low bit recovers the old value. -/
theorem ssnM_val (m : ℕ → ℤ) : 2 * bigVal (ssnM m) + m 0 % 2 = bigVal m := by
  have s0 : ssnM m 0 = m 0 / 2 + m 1 * 2 ^ 23 % 2 ^ 24 := rfl
  have s1 : ssnM m 1 = m 1 / 2 + m 2 * 2 ^ 23 % 2 ^ 24 := rfl
  have s2 : ssnM m 2 = m 2 / 2 + m 3 * 2 ^ 23 % 2 ^ 24 := rfl
  have s3 : ssnM m 3 = m 3 / 2 + m 4 * 2 ^ 23 % 2 ^ 24 := rfl
  have s4 : ssnM m 4 = m 4 / 2 + m 5 * 2 ^ 23 % 2 ^ 24 := rfl
  have s5 : ssnM m 5 = m 5 / 2 + m 6 * 2 ^ 23 % 2 ^ 24 := rfl
  have s6 : ssnM m 6 = m 6 / 2 + m 7 * 2 ^ 23 % 2 ^ 24 := rfl
  have s7 : ssnM m 7 = m 7 / 2 + m 8 * 2 ^ 23 % 2 ^ 24 := rfl
  have s8 : ssnM m 8 = m 8 / 2 + m 9 * 2 ^ 23 % 2 ^ 24 := rfl
  have s9 : ssnM m 9 = m 9 / 2 + m 10 * 2 ^ 23 % 2 ^ 24 := rfl
  have s10 : ssnM m 10 = m 10 / 2 := rfl
  simp only [bigVal, Finset.sum_range_succ, Finset.sum_range_zero,
    s0, s1, s2, s3, s4, s5, s6, s7, s8, s9, s10]
  norm_num
  omega

/-- `bigVal (ssnM m) = bigVal m / 2`, as an Euclidean division. -/
theorem ssnM_half (m : ℕ → ℤ) : bigVal (ssnM m) = bigVal m / 2 := by
  have h := ssnM_val m
  omega

/-- Value identity for the subtraction limbs of `ssn`: the unmasked top limb
absorbs the final borrow, so no truncation occurs. -/
theorem ssnR_val (a m : ℕ → ℤ) : bigVal (ssnR a m) = bigVal a - bigVal (ssnM m) := by
  have c0 : ssnC a m 0 = 0 := rfl
  have c1 : ssnC a m 1 = (a 0 - ssnM m 0 + ssnC a m 0) / 2 ^ 24 := rfl
  have c2 : ssnC a m 2 = (a 1 - ssnM m 1 + ssnC a m 1) / 2 ^ 24 := rfl
  have c3 : ssnC a m 3 = (a 2 - ssnM m 2 + ssnC a m 2) / 2 ^ 24 := rfl
  have c4 : ssnC a m 4 = (a 3 - ssnM m 3 + ssnC a m 3) / 2 ^ 24 := rfl
  have c5 : ssnC a m 5 = (a 4 - ssnM m 4 + ssnC a m 4) / 2 ^ 24 := rfl
  have c6 : ssnC a m 6 = (a 5 - ssnM m 5 + ssnC a m 5) / 2 ^ 24 := rfl
  have c7 : ssnC a m 7 = (a 6 - ssnM m 6 + ssnC a m 6) / 2 ^ 24 := rfl
  have c8 : ssnC a m 8 = (a 7 - ssnM m 7 + ssnC a m 7) / 2 ^ 24 := rfl
  have c9 : ssnC a m 9 = (a 8 - ssnM m 8 + ssnC a m 8) / 2 ^ 24 := rfl
  have c10 : ssnC a m 10 = (a 9 - ssnM m 9 + ssnC a m 9) / 2 ^ 24 := rfl
  simp only [bigVal, Finset.sum_range_succ, Finset.sum_range_zero, ssnR]
  norm_num
  simp only [Int.emod_def, c10, c9, c8, c7, c6, c5, c4, c3, c2, c1, c0]
  ring_nf

/-- The borrow of `ssn` stays in `{-1, 0}` on normalised inputs. -/
theorem ssnC_bounds (a m : ℕ → ℤ)
    (ha : ∀ i, i ≤ 10 → 0 ≤ a i ∧ a i < 2 ^ 24)
    (hm : ∀ i, i ≤ 10 → 0 ≤ m i ∧ m i < 2 ^ 24) :
    ∀ i, i ≤ 10 → -1 ≤ ssnC a m i ∧ ssnC a m i ≤ 0 := by
  intro i
  induction i with
  | zero => intro _; simp [ssnC]
  | succ n ih =>
    intro hn
    have hn' : n ≤ 10 := by omega
    have h1 := ha n hn'
    have h2 := ssnM_bounds m hm n hn'
    have h3 := ih hn'
    simp only [ssnC]
    omega

/-- The value returned by `ssn` is the sign of the subtraction result: on
normalised inputs the masked limbs `0..9` are non-negative and the unmasked
top limb (a 32-bit quantity) carries the sign. -/
theorem ssnSign_spec (a m : ℕ → ℤ)
    (ha : ∀ i, i ≤ 10 → 0 ≤ a i ∧ a i < 2 ^ 24)
    (hm : ∀ i, i ≤ 10 → 0 ≤ m i ∧ m i < 2 ^ 24) :
    ssnSign a m = 1 ↔ bigVal (ssnR a m) < 0 := by
  have h1 := ha 10 (le_refl _)
  have h2 := ssnM_bounds m hm 10 (le_refl _)
  have h3 := ssnC_bounds a m ha hm 10 (le_refl _)
  simp only [ssnSign, bigVal, Finset.sum_range_succ, Finset.sum_range_zero, ssnR]
  norm_num
  omega

/-- Lifting `x / 2^n / 2 = x / 2^(n+1)` to `ℤ` for non-negative `x`. -/
theorem ediv_two_pow_succ (x : ℤ) (hx : 0 ≤ x) (n : ℕ) :
    x / 2 ^ n / 2 = x / 2 ^ (n + 1) := by
  obtain ⟨y, rfl⟩ := Int.eq_ofNat_of_zero_le hx
  have e1 : ((2 : ℤ) ^ n) = ((2 ^ n : ℕ) : ℤ) := by push_cast; ring
  have e2 : ((2 : ℤ) ^ (n + 1)) = ((2 ^ (n + 1) : ℕ) : ℤ) := by push_cast; ring
  rw [e1, e2, show (2 : ℤ) = ((2 : ℕ) : ℤ) from rfl, ← Int.ofNat_ediv, ← Int.ofNat_ediv,
    ← Int.ofNat_ediv, Nat.div_div_eq_div_mul, ← pow_succ]

/-- A normalised limb vector has non-negative value. -/
theorem bigVal_nonneg (m : ℕ → ℤ) (hm : ∀ i, i ≤ 10 → 0 ≤ m i ∧ m i < 2 ^ 24) :
    0 ≤ bigVal m := by
  refine Finset.sum_nonneg fun i hi => ?_
  have hi11 := Finset.mem_range.mp hi
  have := (hm i (by omega)).1
  positivity

/-- Through `k` iterations of the `FP.reduce` loop, the modulus register stays
normalised and is halved each time: after `k` steps it holds `m / 2^k`. -/
theorem redLoop_halves (f0 m : ℕ → ℤ)
    (hm : ∀ i, i ≤ 10 → 0 ≤ m i ∧ m i < 2 ^ 24) :
    ∀ k, (∀ i, i ≤ 10 →
        0 ≤ (redLoop (f0, m) k).2 i ∧ (redLoop (f0, m) k).2 i < 2 ^ 24)
      ∧ bigVal (redLoop (f0, m) k).2 = bigVal m / 2 ^ k := by
  intro k
  induction k with
  | zero => exact ⟨hm, by simp [redLoop]⟩
  | succ n ih =>
    have e : (redLoop (f0, m) (n + 1)).2 = ssnM (redLoop (f0, m) n).2 := rfl
    refine ⟨fun i hi => ?_, ?_⟩
    · rw [e]
      exact ssnM_bounds _ ih.1 i hi
    · rw [e, ssnM_half, ih.2]
      exact ediv_two_pow_succ _ (bigVal_nonneg m hm) n

/-- Claim C10: `BIG.ssn(r, a, m)` overwrites its third argument with
`m >> 1` — on normalised inputs the written modulus register doubles back to
the old value (up to the dropped low bit), equals `m / 2` in value, and stays
normalised — while writing `r = a - (m >> 1)` in value and returning the sign
bit of the subtraction; and `FP.reduce` depends on this side effect: its
constant-time loop (modelled by `redLoop`) leaves the modulus register at
`m / 2^k` after `k` iterations, and on the non-`quo` path `reduce` is exactly
`sb = logb2(XES - 1)` iterations of that loop started at the modulus register
shifted left by `sb`. -/
theorem ssn_mutates_modulus_in_place (a m : ℕ → ℤ)
    (ha : ∀ i, i ≤ 10 → 0 ≤ a i ∧ a i < 2 ^ 24)
    (hm : ∀ i, i ≤ 10 → 0 ≤ m i ∧ m i < 2 ^ 24) :
    ((ssnS a m).2.1 = ssnM m
      ∧ 2 * bigVal (ssnS a m).2.1 + m 0 % 2 = bigVal m
      ∧ bigVal (ssnS a m).2.1 = bigVal m / 2
      ∧ (∀ i, i ≤ 10 → 0 ≤ (ssnS a m).2.1 i ∧ (ssnS a m).2.1 i < 2 ^ 24))
    ∧ bigVal (ssnS a m).1 = bigVal a - bigVal (ssnS a m).2.1
    ∧ ((ssnS a m).2.2 = 1 ↔ bigVal (ssnS a m).1 < 0)
    ∧ (∀ f0 : ℕ → ℤ, ∀ k : ℕ, bigVal (redLoop (f0, m) k).2 = bigVal m / 2 ^ k)
    ∧ (∀ x : FPl, ¬ 16 < x.XES → reduceF x =
        ⟨(redLoop (bigNorm x.f, fshlL ModulusL (logb2L (x.XES - 1)))
            (logb2L (x.XES - 1))).1, 1⟩) := by
  refine ⟨⟨rfl, ssnM_val m, ssnM_half m, ssnM_bounds m hm⟩, ssnR_val a m,
    ssnSign_spec a m ha hm, fun f0 k => (redLoop_halves f0 m hm k).2, fun x hx => ?_⟩
  simp only [reduceF, if_neg hx]

/-- Witness for claim C10 at concrete limb vectors. -/
theorem ssn_mutates_modulus_witness :
    bigVal (ssnS (fun _ => 7) (fun _ => 4)).2.1 = bigVal (fun _ => 4) / 2 :=
  (ssn_mutates_modulus_in_place (fun _ => 7) (fun _ => 4)
    (fun i _ => by norm_num) (fun i _ => by norm_num)).1.2.2.1
